import Mathlib

/-!
# Verification of the signature-based technology detection engine

Shallow embedding of the detection engine (`detectTechnologies` and its
helpers) from the repository's browser/Wappalyzer module, together with
proofs of the specification's claims about it.

Modelling conventions:
* JavaScript numbers flowing through the confidence arithmetic are
  modelled as `Option Int` (`JsNum`); `none` models `NaN`, which is
  produced by `parseInt` on a non-numeric string and propagated by
  `+`, `Math.max` and `Math.min`, and which fails every `>`/`>=`
  comparison.
* The JavaScript regular-expression engine is an abstract parameter
  (`RegexEngine`): the source only hands a pattern body to
  `new RegExp(body, 'i')` and consumes `String.prototype.match`
  results, so the engine is modelled as a function from pattern bodies
  to an optional compiled matcher (compilation failure = `none`).
  Theorems are proved for every engine; witnesses and counterexamples
  instantiate small concrete table engines.
* JavaScript `Map` objects (insertion-ordered, unique keys) are
  modelled as association lists in insertion order; `Map.set` updates
  in place, keeping the position of an existing key.
* JavaScript truthiness is modelled explicitly where the source relies
  on it (the empty string, an empty pattern, a missing property are
  falsy; objects and arrays are always truthy).
-/

namespace WapDetect

/-- JavaScript number as used by the engine's confidence arithmetic:
`none` models `NaN`. -/
abbrev JsNum := Option Int

/-- JavaScript `+` on numbers (`NaN` propagates). -/
def jadd : JsNum → JsNum → JsNum
  | some a, some b => some (a + b)
  | _, _ => none

/-- JavaScript `Math.max` (`NaN` propagates). -/
def jmax : JsNum → JsNum → JsNum
  | some a, some b => some (max a b)
  | _, _ => none

/-- JavaScript `Math.min` (`NaN` propagates). -/
def jmin : JsNum → JsNum → JsNum
  | some a, some b => some (min a b)
  | _, _ => none

/-- JavaScript `x > 0` (false on `NaN`). -/
def jgt0 : JsNum → Bool
  | some a => decide (0 < a)
  | none => false

/-- JavaScript `x >= 50` (false on `NaN`). -/
def jge50 : JsNum → Bool
  | some a => decide (50 ≤ a)
  | none => false

/-!
String primitives.  The JavaScript string methods the source uses
(`toLowerCase`, `startsWith`, `split`, `slice`/first-occurrence
`replace`, leading-whitespace trimming in `parseInt`) are modelled by
structurally recursive functions over the character list, so that every
concrete run can be evaluated by the kernel.
-/

/-- JavaScript `toLowerCase()` (ASCII model). -/
def jsToLower (s : String) : String := String.mk (s.data.map Char.toLower)

/-- Is `pre` a prefix of `cs`? -/
def charsPrefixOf : List Char → List Char → Bool
  | [], _ => true
  | _ :: _, [] => false
  | p :: ps, c :: cs => p == c && charsPrefixOf ps cs

/-- JavaScript `s.startsWith(pre)`. -/
def jsStartsWith (s pre : String) : Bool := charsPrefixOf pre.data s.data

/-- Drop the first `n` characters (the `replace('version:', '')` of the
source removes the first occurrence of the prefix, which under the
guarding `startsWith` is exactly a drop of its length). -/
def jsDrop (s : String) (n : Nat) : String := String.mk (s.data.drop n)

/-- Strip `pre` from the front of `cs`, or `none`. -/
def stripPrefixChars : List Char → List Char → Option (List Char)
  | [], cs => some cs
  | _ :: _, [] => none
  | p :: ps, c :: cs => if p == c then stripPrefixChars ps cs else none

/-- Split on every non-overlapping occurrence of the (non-empty)
separator, left to right.  The fuel argument only makes the recursion
structural; each step consumes at least one character, so
`length + 1` fuel always suffices. -/
def splitCharsFuel (sep : List Char) : Nat → List Char → List Char → List (List Char)
  | _, [], acc => [acc.reverse]
  | 0, cs, acc => [acc.reverse ++ cs]
  | fuel + 1, c :: cs, acc =>
    match stripPrefixChars sep (c :: cs) with
    | some rest => acc.reverse :: splitCharsFuel sep fuel rest []
    | none => splitCharsFuel sep fuel cs (c :: acc)

/-- JavaScript `s.split(sep)` for a non-empty separator. -/
def jsSplit (s sep : String) : List String :=
  (splitCharsFuel sep.data (s.data.length + 1) s.data []).map String.mk

/-- Value of the decimal digit list read left to right. -/
def digitsVal (ds : List Char) : Nat :=
  ds.foldl (fun a c => a * 10 + (c.toNat - 48)) 0

/-- JavaScript `parseInt(s, 10)`: skip leading whitespace, optional
sign, then the longest run of leading digits; `NaN` (`none`) when no
digit is found.  Trailing junk is ignored, as in JavaScript. -/
def jsParseInt (s : String) : JsNum :=
  let cs := s.data.dropWhile (fun c => c.isWhitespace)
  let signed : Bool × List Char :=
    match cs with
    | '-' :: rest => (true, rest)
    | '+' :: rest => (false, rest)
    | _ => (false, cs)
  let ds := signed.2.takeWhile (fun c => c.isDigit)
  if ds.isEmpty then none
  else if signed.1 then some (-(digitsVal ds : Int)) else some ((digitsVal ds : Int))

/-- Abstract result of `value.match(regex)`: `none` when there is no
match, otherwise the capture-group list (index 0 is the whole match; an
optional group that did not participate is `none`). -/
structure JsRegex where
  exec : String → Option (List (Option String))

/-- The abstracted regular-expression engine: maps the regex body handed
to `new RegExp(body, 'i')` to a compiled matcher, or `none` when the
constructor throws on invalid syntax. -/
def RegexEngine := String → Option JsRegex

/-- A raw signature field: the fingerprint database allows a single
pattern string or an array of alternatives.  JavaScript truthiness
differs between the shapes (the empty string is falsy, an array is
always truthy), so the shape is preserved. -/
inductive Patterns where
  | one : String → Patterns
  | many : List String → Patterns
deriving DecidableEq

/-- JavaScript falsiness of the raw field (`!patterns`): only the plain
empty string is falsy. -/
def Patterns.isFalsy : Patterns → Bool
  | .one s => s == ""
  | .many _ => false

/-- `Array.isArray(patterns) ? patterns : [patterns]`. -/
def Patterns.toList : Patterns → List String
  | .one s => [s]
  | .many l => l

/-- The source's `pattern === ''` comparison (only a plain string can be
strictly equal to the empty string). -/
def Patterns.isEmptyStr : Patterns → Bool
  | .one s => s == ""
  | .many _ => false

/-- The check object attached to one DOM selector in a rule; `existsKey`
models the JSON key named `exists`. -/
structure DomChecks where
  existsKey : Option String := none
  text : Option Patterns := none
  attributes : Option (List (String × Patterns)) := none
deriving DecidableEq

/-- Models `Object.keys(checks).length === 0`. -/
def DomChecks.keysEmpty (c : DomChecks) : Bool :=
  c.existsKey.isNone && c.text.isNone && c.attributes.isNone

/-- The `dom` field of a rule: a bare selector string or a
selector-to-checks table. -/
inductive DomSpec where
  | sel : String → DomSpec
  | table : List (String × DomChecks) → DomSpec
deriving DecidableEq

/-- JavaScript falsiness of the `dom` field (a bare empty-string
selector is falsy, an object is truthy). -/
def DomSpec.isFalsy : DomSpec → Bool
  | .sel s => s == ""
  | .table _ => false

/-- Models `typeof tech.dom === 'string' ? { [tech.dom]: {} } : tech.dom`. -/
def DomSpec.normalize : DomSpec → List (String × DomChecks)
  | .sel s => [(s, {})]
  | .table t => t

/-- One technology rule of the fingerprint database. -/
structure Tech where
  scriptSrc : Option Patterns := none
  xhr : Option Patterns := none
  meta : Option (List (String × Patterns)) := none
  js : Option (List (String × Patterns)) := none
  html : Option Patterns := none
  headers : Option (List (String × Patterns)) := none
  cookies : Option (List (String × Patterns)) := none
  dom : Option DomSpec := none
  implies : Option Patterns := none
  cats : List Int := []
  website : Option String := none
  icon : Option String := none
deriving DecidableEq

/-- A JavaScript primitive stored in the collected JS-globals map
(objects and functions are recorded as the boolean `true` by the
collector). -/
inductive JsValue where
  | str : String → JsValue
  | num : Int → JsValue
  | boolean : Bool → JsValue
deriving DecidableEq

/-- JavaScript `String(value)` on the stored primitives. -/
def JsValue.toJsString : JsValue → String
  | .str s => s
  | .num n => toString n
  | .boolean b => if b then "true" else "false"

structure Cookie where
  name : String
  value : String
deriving DecidableEq

/-- One entry of the collected `domResults` map. -/
structure DomResult where
  existsFlag : Bool
  text : String
  attributes : List (String × String)
deriving DecidableEq

/-- The signal snapshot handed to the engine (`collectPageData`'s
shape); meta and header keys are already lower-cased by the
collector. -/
structure PageData where
  meta : List (String × String) := []
  jsGlobals : List (String × JsValue) := []
  html : String := ""
  headers : List (String × String) := []
  cookies : List Cookie := []
  domResults : List (String × DomResult) := []
deriving DecidableEq

structure DetCategory where
  id : Int
  name : String
deriving DecidableEq

/-- One detection record of the result map. -/
structure DetectionRecord where
  name : String
  confidence : JsNum
  version : Option String
  categories : List DetCategory
  website : Option String
  icon : Option String
deriving DecidableEq

/-- The per-run result map (`detected`), a JavaScript `Map` in
insertion order. -/
abbrev DetMap := List (String × DetectionRecord)

/-- The loaded category table (`categories`), id to name. -/
abbrev CatTable := List (Int × String)

/-- The loaded technology table (`technologies`), name to rule, in
object-key order. -/
abbrev TechList := List (String × Tech)

/-- `x || null` on a nullable string with JavaScript truthiness: the
empty string collapses to `null`. -/
def jsOrNull : Option String → Option String
  | some s => if s == "" then none else some s
  | none => none

/-- The source's `version || (existing?.version) || null`. -/
def jsVersionMerge (version existingVer : Option String) : Option String :=
  match version with
  | some v => if v == "" then jsOrNull existingVer else some v
  | none => jsOrNull existingVer

/-- The source's `categories[catId]?.name || 'Unknown'`. -/
def catNameOf (cats : CatTable) (catId : Int) : String :=
  match cats.lookup catId with
  | some nm => if nm == "" then "Unknown" else nm
  | none => "Unknown"

/-- `Map.prototype.set`: update in place when the key is present
(keeping its position), otherwise append. -/
def mapSet (m : DetMap) (k : String) (v : DetectionRecord) : DetMap :=
  if (m.lookup k).isSome then
    m.map (fun p => if p.1 == k then (k, v) else p)
  else m ++ [(k, v)]

/-- The source's `addDetection` (the spec's `addOrStrengthen`). -/
def addDetection (cats : CatTable) (m : DetMap) (techName : String) (tech : Tech)
    (confidence : JsNum) (version : Option String) : DetMap :=
  let existing := m.lookup techName
  let newConfidence := match existing with
    | some e => jmax e.confidence confidence
    | none => confidence
  let newVersion := jsVersionMerge version (match existing with
    | some e => e.version
    | none => none)
  mapSet m techName
    { name := techName
      confidence := jmin newConfidence (some 100)
      version := newVersion
      categories := tech.cats.map (fun catId => ⟨catId, catNameOf cats catId⟩)
      website := jsOrNull tech.website
      icon := jsOrNull tech.icon }

/-- The source's `parsePattern`, with the compiled regex supplied by the
abstract engine.  `part.replace('version:', '')` and
`part.replace('confidence:', '')` remove the first occurrence of the
prefix, which under the guarding `startsWith` is a `drop` of its
length. -/
structure ParsedPattern where
  regex : JsRegex
  versionGroup : Option String
  confidence : JsNum

def parsePattern (E : RegexEngine) (pattern : String) : Option ParsedPattern :=
  if pattern == "" then none
  else
    let parts := jsSplit pattern "\\;"
    let parsedParts : String × Option String × JsNum :=
      if parts.length > 1 then
        parts.tail.foldl
          (fun (acc : String × Option String × JsNum) part =>
            if jsStartsWith part "version:" then (acc.1, some (jsDrop part 8), acc.2.2)
            else if jsStartsWith part "confidence:" then (acc.1, acc.2.1, jsParseInt (jsDrop part 11))
            else acc)
          (parts.headD "", none, some 100)
      else (pattern, none, (some 100 : JsNum))
    match E parsedParts.1 with
    | some rgx => some ⟨rgx, parsedParts.2.1, parsedParts.2.2⟩
    | none => none

/-- The source's `extractVersion`: `match[groupNum] || null`, where an
out-of-range or `NaN` index reads `undefined`. -/
def extractVersion (mtch : List (Option String)) (versionGroup : Option String) :
    Option String :=
  match versionGroup with
  | none => none
  | some vg =>
    if vg == "" then none
    else if jsStartsWith vg "\\" then
      match jsParseInt (jsDrop vg 1) with
      | some n => if n < 0 then none else jsOrNull ((mtch[n.toNat]?).getD none)
      | none => none
    else none

/-- The non-null result of `testPatterns`.  In the source the object
also carries `matched: true`; since that field is the constant `true`
whenever the result is non-null, `result?.matched` is modelled as the
result being `some`. -/
structure TPResult where
  version : Option String
  confidence : JsNum
deriving DecidableEq

/-- The pattern-list loop body of `testPatterns`: the first alternative
whose compiled regex matches wins; a pattern that fails to compile is
skipped. -/
def testPatternList (E : RegexEngine) (value : String) : List String → Option TPResult
  | [] => none
  | p :: rest =>
    match parsePattern E p with
    | none => testPatternList E value rest
    | some parsed =>
      match parsed.regex.exec value with
      | some mtch => some ⟨extractVersion mtch parsed.versionGroup, parsed.confidence⟩
      | none => testPatternList E value rest

/-- The source's `testPatterns`: `if (!patterns || !value) return null`
followed by the first-match loop. -/
def testPatterns (E : RegexEngine) (patterns : Patterns) (value : String) :
    Option TPResult :=
  if patterns.isFalsy || value == "" then none
  else testPatternList E value patterns.toList

/-!
## Signal matcher

Each branch of the per-technology loop in `detectTechnologies` performs
only two kinds of state updates: `totalConfidence += result.confidence`
and `if (result.version) detectedVersion = result.version`.  The branch
bodies are therefore embedded as the in-order list of `TPResult`
contributions they produce (an existence-only `+= 100` contribution is
`⟨none, some 100⟩`), and the loop's running state as a fold of
`updState` over the concatenation of the branch lists in source order
(scriptSrc, xhr, meta, js, html, headers, cookies, dom).
-/

/-- Running state of one technology's evaluation
(`totalConfidence` / `detectedVersion`). -/
structure EvalState where
  totalConfidence : JsNum
  detectedVersion : Option String
deriving DecidableEq

/-- One state update of the matcher loop:
`totalConfidence += result.confidence;`
`if (result.version) detectedVersion = result.version` (the assignment
is guarded by JavaScript truthiness of the version string). -/
def updState (st : EvalState) (r : TPResult) : EvalState :=
  { totalConfidence := jadd st.totalConfidence r.confidence
    detectedVersion :=
      match r.version with
      | some v => if v == "" then st.detectedVersion else some v
      | none => st.detectedVersion }

/-- `// Check scriptSrc patterns`: guarded by
`tech.scriptSrc && scriptUrls.length > 0`; every matching URL
contributes. -/
def scriptSrcResults (E : RegexEngine) (tech : Tech) (scriptUrls : List String) :
    List TPResult :=
  match tech.scriptSrc with
  | some pats =>
    if pats.isFalsy || scriptUrls.length == 0 then []
    else scriptUrls.filterMap (fun url => testPatterns E (.many pats.toList) url)
  | none => []

/-- `// Check xhr patterns`: same shape as `scriptSrc` over the XHR URL
list. -/
def xhrResults (E : RegexEngine) (tech : Tech) (xhrUrls : List String) :
    List TPResult :=
  match tech.xhr with
  | some pats =>
    if pats.isFalsy || xhrUrls.length == 0 then []
    else xhrUrls.filterMap (fun url => testPatterns E (.many pats.toList) url)
  | none => []

/-- `// Check meta tags`: per declared meta name, the snapshot value is
fetched by lower-cased key and must be truthy (`if (metaValue)`), so an
empty-string stored value is skipped; then a regex match contributes,
and otherwise an empty-string pattern contributes 100. -/
def metaResults (E : RegexEngine) (tech : Tech) (pd : PageData) : List TPResult :=
  match tech.meta with
  | some entries =>
    entries.filterMap (fun entry =>
      match pd.meta.lookup (jsToLower entry.1) with
      | some metaValue =>
        if metaValue == "" then none
        else
          match testPatterns E entry.2 metaValue with
          | some r => some r
          | none => if entry.2.isEmptyStr then some ⟨none, some 100⟩ else none
      | none => none)
  | none => []

/-- `// Check JavaScript globals`: existence check is
`jsValue !== undefined` (an empty-string value still counts); an
empty-string pattern contributes 100, otherwise the global's
`String(...)` rendering is tested. -/
def jsResults (E : RegexEngine) (tech : Tech) (pd : PageData) : List TPResult :=
  match tech.js with
  | some entries =>
    entries.filterMap (fun entry =>
      match pd.jsGlobals.lookup entry.1 with
      | some jsValue =>
        if entry.2.isEmptyStr then some ⟨none, some 100⟩
        else testPatterns E entry.2 jsValue.toJsString
      | none => none)
  | none => []

/-- `// Check HTML patterns`: guarded by `tech.html && pageData.html`
(an empty HTML blob is falsy); at most one contribution. -/
def htmlResults (E : RegexEngine) (tech : Tech) (pd : PageData) : List TPResult :=
  match tech.html with
  | some pats =>
    if pats.isFalsy || pd.html == "" then []
    else (testPatterns E (.many pats.toList) pd.html).toList
  | none => []

/-- `// Check response headers`: per declared header name, the value is
fetched by lower-cased key and must be truthy (`if (headerValue)`); an
empty-string pattern contributes 100, otherwise the value is tested. -/
def headerResults (E : RegexEngine) (tech : Tech) (pd : PageData) : List TPResult :=
  match tech.headers with
  | some entries =>
    entries.filterMap (fun entry =>
      match pd.headers.lookup (jsToLower entry.1) with
      | some headerValue =>
        if headerValue == "" then none
        else if entry.2.isEmptyStr then some ⟨none, some 100⟩
        else testPatterns E entry.2 headerValue
      | none => none)
  | none => []

/-- `// Check cookies`: the cookie is found by case-insensitive name;
presence of the cookie object is enough for the empty-string pattern
(the stored value, even empty, is not consulted), otherwise the
cookie's value is tested. -/
def cookieResults (E : RegexEngine) (tech : Tech) (pd : PageData) : List TPResult :=
  match tech.cookies with
  | some entries =>
    entries.filterMap (fun entry =>
      match pd.cookies.find? (fun c => jsToLower c.name == jsToLower entry.1) with
      | some cookie =>
        if entry.2.isEmptyStr then some ⟨none, some 100⟩
        else testPatterns E entry.2 cookie.value
      | none => none)
  | none => []

/-- The contributions of one DOM selector's check object once
`domResult?.exists` holds. -/
def domChecksResults (E : RegexEngine) (checks : DomChecks) (dr : DomResult) :
    List TPResult :=
  if checks.keysEmpty || checks.existsKey == some "" then [⟨none, some 100⟩]
  else
    (match checks.text with
     | some tp =>
       if tp.isFalsy || dr.text == "" then []
       else (testPatterns E tp dr.text).toList
     | none => []) ++
    (match checks.attributes with
     | some attrs =>
       attrs.filterMap (fun attr =>
         match dr.attributes.lookup attr.1 with
         | some attrValue =>
           if attrValue == "" then none
           else testPatterns E attr.2 attrValue
         | none => none)
     | none => [])

/-- `// Check DOM selectors`: guarded by `tech.dom && pageData.domResults`
(the collected `domResults` object is always truthy, a bare empty-string
selector is falsy). -/
def domSignalResults (E : RegexEngine) (tech : Tech) (pd : PageData) : List TPResult :=
  match tech.dom with
  | some spec =>
    if spec.isFalsy then []
    else
      spec.normalize.flatMap (fun sel =>
        match pd.domResults.lookup sel.1 with
        | some dr => if dr.existsFlag then domChecksResults E sel.2 dr else []
        | none => [])
  | none => []

/-- All contributions of one technology's evaluation, in the source's
branch order. -/
def signalResults (E : RegexEngine) (tech : Tech) (pd : PageData)
    (scriptUrls xhrUrls : List String) : List TPResult :=
  scriptSrcResults E tech scriptUrls ++ xhrResults E tech xhrUrls ++
  metaResults E tech pd ++ jsResults E tech pd ++ htmlResults E tech pd ++
  headerResults E tech pd ++ cookieResults E tech pd ++ domSignalResults E tech pd

/-- One technology's evaluation: fold the in-order contributions over
the initial state `totalConfidence = 0`, `detectedVersion = null`. -/
def evalTech (E : RegexEngine) (tech : Tech) (pd : PageData)
    (scriptUrls xhrUrls : List String) : EvalState :=
  (signalResults E tech pd scriptUrls xhrUrls).foldl updState ⟨some 0, none⟩

/-- The main aggregation loop of `detectTechnologies`: evaluate every
technology of the store and record it when `totalConfidence > 0`. -/
def mainLoop (E : RegexEngine) (techs : TechList) (cats : CatTable) (pd : PageData)
    (scriptUrls xhrUrls : List String) : DetMap :=
  techs.foldl
    (fun m entry =>
      let st := evalTech E entry.2 pd scriptUrls xhrUrls
      if jgt0 st.totalConfidence then
        addDetection cats m entry.1 entry.2 st.totalConfidence st.detectedVersion
      else m)
    []

/-!
## Implication closure

`// Process implies (dependencies)`.  The source iterates
`detected.entries()` while `addDetection` appends to the same `Map`;
a JavaScript `Map` iterator also visits entries appended during the
iteration, so one `for…of` pass is an index-walk over the growing
association list (`goPass`).  The surrounding `while (changed)` loop
repeats full passes until one adds nothing.  Both loops are given
explicit fuel that is proved sufficient (`goPass` never exhausts its
fuel on a key-unique map, and the while loop always exits by the
`changed` flag within two passes).
-/

/-- Parse one `implies` entry: optional `\\;confidence:<n>` suffix,
default confidence 100. -/
def parseImplied (implied : String) : String × JsNum :=
  let parts := jsSplit implied "\\;"
  if parts.length > 1 then
    (parts.headD "",
     parts.tail.foldl
       (fun acc part =>
         if jsStartsWith part "confidence:" then jsParseInt (jsDrop part 11) else acc)
       (some 100))
  else (implied, some 100)

/-- One implied-name step:
`if (!detected.has(impliedName) && technologies[impliedName]) { addDetection(...); changed = true }`. -/
def addImplied (techs : TechList) (cats : CatTable) (acc : DetMap × Bool)
    (implied : String) : DetMap × Bool :=
  let parsedI := parseImplied implied
  if (acc.1.lookup parsedI.1).isNone then
    match techs.lookup parsedI.1 with
    | some impliedTech => (addDetection cats acc.1 parsedI.1 impliedTech parsedI.2 none, true)
    | none => acc
  else acc

/-- Process the `implies` list of one detected technology name
(`const tech = technologies[techName]; if (tech?.implies) …`); the
returned flag records whether anything was added. -/
def processImplies (techs : TechList) (cats : CatTable) (m : DetMap)
    (techName : String) : DetMap × Bool :=
  match techs.lookup techName with
  | none => (m, false)
  | some tech =>
    match tech.implies with
    | some impl =>
      if impl.isFalsy then (m, false)
      else impl.toList.foldl (addImplied techs cats) (m, false)
    | none => (m, false)

/-- One live `for (const [techName] of detected.entries())` pass: an
index walk that also reaches entries appended during the walk.  The
fuel is only a structural-recursion device; `goPass_complete` below
shows the supplied fuel is never exhausted. -/
def goPass (techs : TechList) (cats : CatTable) :
    Nat → DetMap → Nat → Bool → DetMap × Bool
  | 0, m, _, changed => (m, changed)
  | fuel + 1, m, i, changed =>
    if h : i < m.length then
      let step := processImplies techs cats m (m.get ⟨i, h⟩).1
      goPass techs cats fuel step.1 (i + 1) (changed || step.2)
    else (m, changed)

/-- One full pass of the closure, started at index 0 with `changed`
reset to `false`. -/
def onePass (techs : TechList) (cats : CatTable) (m : DetMap) : DetMap × Bool :=
  goPass techs cats (m.length + techs.length + 1) m 0 false

/-- The `while (changed)` loop; also returns the number of passes
executed. -/
def closureLoop (techs : TechList) (cats : CatTable) :
    Nat → DetMap → DetMap × Nat
  | 0, m => (m, 0)
  | fuel + 1, m =>
    let pass := onePass techs cats m
    if pass.2 then
      let rest := closureLoop techs cats fuel pass.1
      (rest.1, rest.2 + 1)
    else (pass.1, 1)

/-- The implication closure of a detection map. -/
def impliesClosure (techs : TechList) (cats : CatTable) (m : DetMap) : DetMap :=
  (closureLoop techs cats (techs.length + 2) m).1

/-- Number of passes the `while (changed)` loop executes. -/
def closurePasses (techs : TechList) (cats : CatTable) (m : DetMap) : Nat :=
  (closureLoop techs cats (techs.length + 2) m).2

/-!
## Ranking, classification and the exported entry point
-/

/-- Total-order extension of `≤` on `JsNum` used by the sort
comparator.  `none` (`NaN`) never reaches the sort: records below the
floor are filtered first and `NaN >= 50` is false; every total
extension therefore yields the same sorted output. -/
def jle : JsNum → JsNum → Bool
  | none, _ => true
  | some _, none => false
  | some a, some b => a ≤ b

/-- The stable sort comparator `(a, b) => b.confidence - a.confidence`:
keep `a` before `b` exactly when `a`'s confidence is at least `b`'s. -/
def leConfDesc (a b : DetectionRecord) : Bool := jle b.confidence a.confidence

/-- `Array.from(detected.values()).filter(d => d.confidence >= 50)
.sort((a, b) => b.confidence - a.confidence)`; JavaScript's sort is
specified to be stable. -/
def detectedArrayOf (m : DetMap) : List DetectionRecord :=
  ((m.map Prod.snd).filter (fun d => jge50 d.confidence)).mergeSort leConfDesc

/-- `d.categories.some(c => c.id === 1)`. -/
def hasCmsCat (d : DetectionRecord) : Bool := d.categories.any (fun c => c.id == 1)

/-- The exported result shape. -/
structure DetectOutput where
  cms : Option String
  cmsDetails : Option DetectionRecord
  detectedTechnologies : List DetectionRecord
deriving DecidableEq

/-- The empty result returned by the catch-all handler of
`detectTechnologies`. -/
def emptyOutput : DetectOutput := ⟨none, none, []⟩

/-- The six sequential, individually fallible steps of
`collectPageData`, in the source's assignment order: headers from the
response collector, then cookies, html, meta, jsGlobals and domResults
from the page.  `Except.error` models the step throwing. -/
structure PageSource where
  headers : Except String (List (String × String)) := .ok []
  cookies : Except String (List Cookie) := .ok []
  html : Except String String := .ok ""
  meta : Except String (List (String × String)) := .ok []
  jsGlobals : Except String (List (String × JsValue)) := .ok []
  domResults : Except String (List (String × DomResult)) := .ok []

/-- A source whose every step succeeds, delivering a given snapshot. -/
def PageSource.pure (pd : PageData) : PageSource :=
  { headers := .ok pd.headers, cookies := .ok pd.cookies, html := .ok pd.html,
    meta := .ok pd.meta, jsGlobals := .ok pd.jsGlobals, domResults := .ok pd.domResults }

/-- The source's `collectPageData`: starting from the default snapshot,
perform the six assignments in order inside one `try`; the function's
*own* `catch` swallows the first throwing step, so the partial `data`
is returned — fields assigned before the throw keep their collected
values, the remaining fields keep their defaults — and no error ever
reaches `detectTechnologies`. -/
def collectPageData (src : PageSource) : PageData :=
  match src.headers with
  | .error _ => {}
  | .ok hs =>
    match src.cookies with
    | .error _ => { headers := hs }
    | .ok cs =>
      match src.html with
      | .error _ => { headers := hs, cookies := cs }
      | .ok htmlv =>
        match src.meta with
        | .error _ => { headers := hs, cookies := cs, html := htmlv }
        | .ok ms =>
          match src.jsGlobals with
          | .error _ => { headers := hs, cookies := cs, html := htmlv, meta := ms }
          | .ok gs =>
            match src.domResults with
            | .error _ =>
              { headers := hs, cookies := cs, html := htmlv, meta := ms, jsGlobals := gs }
            | .ok ds =>
              { headers := hs, cookies := cs, html := htmlv, meta := ms, jsGlobals := gs,
                domResults := ds }

/-- The source's `detectTechnologies`.  `collectPageData` absorbs every
collection error itself and the rest of the body is a pure, total
computation in this typed model, so the source's surrounding
`try/catch` — whose `catch` would return `emptyOutput` — has nothing
left to catch: in particular a failure during page-data collection
does *not* reach it, and the run continues on the partial snapshot. -/
def detectTechnologies (E : RegexEngine) (techs : TechList) (cats : CatTable)
    (src : PageSource) (scriptUrls xhrUrls : List String) : DetectOutput :=
  let pageData := collectPageData src
  let m := impliesClosure techs cats (mainLoop E techs cats pageData scriptUrls xhrUrls)
  let detectedArray := detectedArrayOf m
  let cmsFound := detectedArray.find? hasCmsCat
  { cms := jsOrNull (cmsFound.map (fun d => d.name))
    cmsDetails := cmsFound
    detectedTechnologies := detectedArray }

/-!
## Basic lemmas about the result map
-/

/-- The key list of a detection map, in insertion order. -/
def keysOf (m : DetMap) : List String := m.map Prod.fst

@[simp] theorem keysOf_nil : keysOf ([] : DetMap) = [] := rfl

theorem keysOf_append (a b : DetMap) : keysOf (a ++ b) = keysOf a ++ keysOf b :=
  List.map_append _ _ _

theorem mem_keysOf_iff_lookup_isSome {m : DetMap} {k : String} :
    k ∈ keysOf m ↔ (m.lookup k).isSome := by
  simp only [List.lookup_isSome_iff, keysOf, List.mem_map, beq_iff_eq]
  constructor
  · rintro ⟨p, hp, rfl⟩; exact ⟨p, hp, rfl⟩
  · rintro ⟨p, hp, rfl⟩; exact ⟨p, hp, rfl⟩

theorem keysOf_mapSet (m : DetMap) (k : String) (v : DetectionRecord) :
    keysOf (mapSet m k v) = if k ∈ keysOf m then keysOf m else keysOf m ++ [k] := by
  unfold mapSet
  by_cases h : k ∈ keysOf m
  · rw [if_pos (mem_keysOf_iff_lookup_isSome.mp h), if_pos h]
    unfold keysOf
    rw [List.map_map]
    refine List.map_congr_left (fun p _ => ?_)
    by_cases hpk : p.1 == k
    · simp only [Function.comp, hpk, if_true]; exact (eq_of_beq hpk).symm
    · simp only [Function.comp, Bool.not_eq_true] at hpk ⊢
      simp [hpk]
  · rw [if_neg (by simpa using (not_iff_not.mpr (@mem_keysOf_iff_lookup_isSome m k)).mp h),
      if_neg h, keysOf_append]
    rfl

theorem lookup_mapSet_self (m : DetMap) (k : String) (v : DetectionRecord) :
    (mapSet m k v).lookup k = some v := by
  unfold mapSet
  by_cases h : (m.lookup k).isSome
  · rw [if_pos h]
    induction m with
    | nil => simp at h
    | cons p m ih =>
      obtain ⟨pk, pv⟩ := p
      by_cases hpk : pk = k
      · subst hpk
        simp
      · have hbp : (pk == k) = false := beq_eq_false_iff_ne.mpr hpk
        have hbk : (k == pk) = false := beq_eq_false_iff_ne.mpr (fun he => hpk he.symm)
        rw [List.lookup_cons, hbk] at h
        simp only [List.map_cons, hbp, Bool.false_eq_true, if_false, List.lookup_cons, hbk]
        exact ih h
  · rw [if_neg h, List.lookup_append]
    rw [Option.not_isSome_iff_eq_none.mp h]
    simp

theorem keysOf_addDetection (cats : CatTable) (m : DetMap) (k : String) (tech : Tech)
    (c : JsNum) (v : Option String) :
    keysOf (addDetection cats m k tech c v) =
      if k ∈ keysOf m then keysOf m else keysOf m ++ [k] := by
  unfold addDetection
  exact keysOf_mapSet _ _ _

theorem keysOf_addDetection_nodup (cats : CatTable) (m : DetMap) (k : String)
    (tech : Tech) (c : JsNum) (v : Option String) (hm : (keysOf m).Nodup) :
    (keysOf (addDetection cats m k tech c v)).Nodup := by
  rw [keysOf_addDetection]
  by_cases h : k ∈ keysOf m
  · simpa [h]
  · simp [h, List.nodup_append, hm]

theorem addDetection_absent (cats : CatTable) (m : DetMap) (k : String) (tech : Tech)
    (c : JsNum) (v : Option String) (h : m.lookup k = none) :
    addDetection cats m k tech c v =
      m ++ [(k, { name := k
                  confidence := jmin c (some 100)
                  version := jsVersionMerge v none
                  categories := tech.cats.map (fun catId => ⟨catId, catNameOf cats catId⟩)
                  website := jsOrNull tech.website
                  icon := jsOrNull tech.icon })] := by
  unfold addDetection mapSet
  rw [h]
  simp

/-- Generic preservation of a per-entry invariant by `mapSet`. -/
theorem mapSet_inv {P : String × DetectionRecord → Prop} {m : DetMap} {k : String}
    {v : DetectionRecord} (hm : ∀ p ∈ m, P p) (hv : P (k, v)) :
    ∀ p ∈ mapSet m k v, P p := by
  intro p hp
  unfold mapSet at hp
  by_cases h : (m.lookup k).isSome
  · rw [if_pos h] at hp
    obtain ⟨q, hq, rfl⟩ := List.mem_map.mp hp
    by_cases hqk : q.1 == k
    · simpa [hqk] using hv
    · simpa [hqk] using hm q hq
  · rw [if_neg h] at hp
    rcases List.mem_append.mp hp with h1 | h2
    · exact hm p h1
    · rcases List.mem_singleton.mp h2 with rfl
      exact hv

/-- Every entry `addDetection` stores is named after its key. -/
def KeysNamed (m : DetMap) : Prop := ∀ p ∈ m, p.2.name = p.1

theorem addDetection_keysNamed {cats : CatTable} {m : DetMap} {k : String} {tech : Tech}
    {c : JsNum} {v : Option String} (hm : KeysNamed m) :
    KeysNamed (addDetection cats m k tech c v) := by
  unfold addDetection
  exact mapSet_inv hm rfl

/-- Every confidence `addDetection` stores is clamped to at most 100. -/
def confAtMost100 (c : JsNum) : Prop := ∀ n : Int, c = some n → n ≤ 100

def Conf100Map (m : DetMap) : Prop := ∀ p ∈ m, confAtMost100 p.2.confidence

theorem jmin_100_atMost (x : JsNum) : confAtMost100 (jmin x (some 100)) := by
  intro n hn
  cases x with
  | none => simp [jmin] at hn
  | some a =>
    simp only [jmin, Option.some.injEq] at hn
    omega

theorem addDetection_conf100 {cats : CatTable} {m : DetMap} {k : String} {tech : Tech}
    {c : JsNum} {v : Option String} (hm : Conf100Map m) :
    Conf100Map (addDetection cats m k tech c v) := by
  unfold addDetection
  exact mapSet_inv hm (jmin_100_atMost _)

/-!
## C10: the empty string never matches
-/

/-- **C10** (confirmed): for every engine and every pattern list,
testing against the empty-string value yields no match and no
contribution (`if (!patterns || !value) return null`), whatever the
compiled regexes would do on the empty string; consequently an empty
HTML blob produces no contribution, and a meta or header entry whose
stored snapshot value is the empty string produces no contribution
either, whatever its pattern (presence patterns included). -/
theorem c10_empty_value_never_matches (E : RegexEngine) (patterns : Patterns)
    (tech : Tech) (pd : PageData) (mk hk : String) (mpat hpat : Patterns) :
    testPatterns E patterns "" = none ∧
    (pd.html = "" → htmlResults E tech pd = []) ∧
    (tech.meta = some [(mk, mpat)] → pd.meta.lookup (jsToLower mk) = some "" →
      metaResults E tech pd = []) ∧
    (tech.headers = some [(hk, hpat)] → pd.headers.lookup (jsToLower hk) = some "" →
      headerResults E tech pd = []) := by
  refine ⟨?_, ?_, ?_, ?_⟩
  · simp [testPatterns]
  · intro h
    unfold htmlResults
    cases tech.html with
    | none => rfl
    | some pats => simp [h]
  · intro hm hv
    unfold metaResults
    rw [hm]
    simp [hv]
  · intro hh hv
    unfold headerResults
    rw [hh]
    simp [hv]

/-- An engine whose single compiled regex matches every value, the empty
string included. -/
def matchAllEngine : RegexEngine := fun _ => some ⟨fun v => some [some v]⟩

def c10tech : Tech :=
  { html := some (.one "x"), meta := some [("k", .one "x")],
    headers := some [("h", .one "x")] }

def c10pd : PageData := { html := "", meta := [("k", "")], headers := [("h", "")] }

/-- Witness for C10 at a concrete engine that matches everything. -/
theorem c10_witness :
    testPatterns matchAllEngine (.many ["x"]) "" = none ∧
    htmlResults matchAllEngine c10tech c10pd = [] ∧
    metaResults matchAllEngine c10tech c10pd = [] ∧
    headerResults matchAllEngine c10tech c10pd = [] := by
  obtain ⟨h1, h2, h3, h4⟩ :=
    c10_empty_value_never_matches matchAllEngine (.many ["x"]) c10tech c10pd
      "k" "h" (.one "x") (.one "x")
  exact ⟨h1, h2 rfl, h3 rfl (by decide), h4 rfl (by decide)⟩

/-!
## Evaluation helpers for single-signal rules and concrete runs
-/

theorem scriptSrcResults_none {E : RegexEngine} {su : List String} {tech : Tech}
    (h : tech.scriptSrc = none) : scriptSrcResults E tech su = [] := by
  unfold scriptSrcResults; rw [h]

theorem xhrResults_none {E : RegexEngine} {xu : List String} {tech : Tech}
    (h : tech.xhr = none) : xhrResults E tech xu = [] := by
  unfold xhrResults; rw [h]

theorem metaResults_none {E : RegexEngine} {pd : PageData} {tech : Tech}
    (h : tech.meta = none) : metaResults E tech pd = [] := by
  unfold metaResults; rw [h]

theorem jsResults_none {E : RegexEngine} {pd : PageData} {tech : Tech}
    (h : tech.js = none) : jsResults E tech pd = [] := by
  unfold jsResults; rw [h]

theorem htmlResults_none {E : RegexEngine} {pd : PageData} {tech : Tech}
    (h : tech.html = none) : htmlResults E tech pd = [] := by
  unfold htmlResults; rw [h]

theorem headerResults_none {E : RegexEngine} {pd : PageData} {tech : Tech}
    (h : tech.headers = none) : headerResults E tech pd = [] := by
  unfold headerResults; rw [h]

theorem cookieResults_none {E : RegexEngine} {pd : PageData} {tech : Tech}
    (h : tech.cookies = none) : cookieResults E tech pd = [] := by
  unfold cookieResults; rw [h]

theorem domSignalResults_none {E : RegexEngine} {pd : PageData} {tech : Tech}
    (h : tech.dom = none) : domSignalResults E tech pd = [] := by
  unfold domSignalResults; rw [h]

/-- An empty-string pattern can never regex-match: `testPatterns`
returns `null` on it (`!patterns`). -/
theorem testPatterns_empty_pattern (E : RegexEngine) (v : String) :
    testPatterns E (.one "") v = none := by
  simp [testPatterns, Patterns.isFalsy]

/-- When the filtered record list is already in descending order, the
stable sort leaves it unchanged. -/
theorem detectedArrayOf_of_sorted {m : DetMap}
    (h : ((m.map Prod.snd).filter (fun d => jge50 d.confidence)).Pairwise
      (fun a b => leConfDesc a b = true)) :
    detectedArrayOf m = (m.map Prod.snd).filter (fun d => jge50 d.confidence) :=
  List.mergeSort_of_sorted h

/-- Closed-form evaluation of `detectTechnologies` once the sorted
array has been computed. -/
theorem detectTechnologies_eval (E : RegexEngine) (techs : TechList)
    (cats : CatTable) (src : PageSource) (su xu : List String)
    (arr : List DetectionRecord)
    (h : detectedArrayOf (impliesClosure techs cats
      (mainLoop E techs cats (collectPageData src) su xu)) = arr) :
    detectTechnologies E techs cats src su xu =
      ⟨jsOrNull ((arr.find? hasCmsCat).map (fun d => d.name)), arr.find? hasCmsCat, arr⟩ := by
  simp only [detectTechnologies]
  rw [h]

/-!
## C2: empty-string patterns and key presence
-/

/-- A rule whose only signature is an empty-string header pattern. -/
def headersOnlyTech (k : String) : Tech := { headers := some [(k, .one "")] }

/-- A rule whose only signature is an empty-string meta pattern. -/
def metaOnlyTech (k : String) : Tech := { meta := some [(k, .one "")] }

/-- A rule whose only signature is an empty-string JS-global pattern. -/
def jsOnlyTech (k : String) : Tech := { js := some [(k, .one "")] }

/-- A rule whose only signature is an empty-string cookie pattern. -/
def cookiesOnlyTech (k : String) : Tech := { cookies := some [(k, .one "")] }

theorem evalTech_headersOnly (E : RegexEngine) (k : String) (pd : PageData)
    (su xu : List String) :
    evalTech E (headersOnlyTech k) pd su xu =
      (headerResults E (headersOnlyTech k) pd).foldl updState ⟨some 0, none⟩ := by
  unfold evalTech signalResults
  rw [scriptSrcResults_none rfl, xhrResults_none rfl, metaResults_none rfl,
    jsResults_none rfl, htmlResults_none rfl, cookieResults_none rfl,
    domSignalResults_none rfl]
  simp

theorem evalTech_metaOnly (E : RegexEngine) (k : String) (pd : PageData)
    (su xu : List String) :
    evalTech E (metaOnlyTech k) pd su xu =
      (metaResults E (metaOnlyTech k) pd).foldl updState ⟨some 0, none⟩ := by
  unfold evalTech signalResults
  rw [scriptSrcResults_none rfl, xhrResults_none rfl, jsResults_none rfl,
    htmlResults_none rfl, headerResults_none rfl, cookieResults_none rfl,
    domSignalResults_none rfl]
  simp

theorem evalTech_jsOnly (E : RegexEngine) (k : String) (pd : PageData)
    (su xu : List String) :
    evalTech E (jsOnlyTech k) pd su xu =
      (jsResults E (jsOnlyTech k) pd).foldl updState ⟨some 0, none⟩ := by
  unfold evalTech signalResults
  rw [scriptSrcResults_none rfl, xhrResults_none rfl, metaResults_none rfl,
    htmlResults_none rfl, headerResults_none rfl, cookieResults_none rfl,
    domSignalResults_none rfl]
  simp

theorem evalTech_cookiesOnly (E : RegexEngine) (k : String) (pd : PageData)
    (su xu : List String) :
    evalTech E (cookiesOnlyTech k) pd su xu =
      (cookieResults E (cookiesOnlyTech k) pd).foldl updState ⟨some 0, none⟩ := by
  unfold evalTech signalResults
  rw [scriptSrcResults_none rfl, xhrResults_none rfl, metaResults_none rfl,
    jsResults_none rfl, htmlResults_none rfl, headerResults_none rfl,
    domSignalResults_none rfl]
  simp

theorem headerResults_single (E : RegexEngine) (k : String) (pd : PageData) :
    headerResults E (headersOnlyTech k) pd =
      match pd.headers.lookup (jsToLower k) with
      | some v => if v == "" then [] else [⟨none, some 100⟩]
      | none => [] := by
  unfold headerResults headersOnlyTech
  cases hv : pd.headers.lookup (jsToLower k) with
  | none => simp [hv]
  | some v =>
    by_cases hve : v = ""
    · subst hve; simp [hv]
    · simp [hv, hve, Patterns.isEmptyStr]

theorem metaResults_single (E : RegexEngine) (k : String) (pd : PageData) :
    metaResults E (metaOnlyTech k) pd =
      match pd.meta.lookup (jsToLower k) with
      | some v => if v == "" then [] else [⟨none, some 100⟩]
      | none => [] := by
  unfold metaResults metaOnlyTech
  cases hv : pd.meta.lookup (jsToLower k) with
  | none => simp [hv]
  | some v =>
    by_cases hve : v = ""
    · subst hve; simp [hv]
    · simp [hv, hve, testPatterns_empty_pattern, Patterns.isEmptyStr]

theorem jsResults_single (E : RegexEngine) (k : String) (pd : PageData) :
    jsResults E (jsOnlyTech k) pd =
      match pd.jsGlobals.lookup k with
      | some _ => [⟨none, some 100⟩]
      | none => [] := by
  unfold jsResults jsOnlyTech
  cases hv : pd.jsGlobals.lookup k with
  | none => simp [hv]
  | some jv => simp [hv, Patterns.isEmptyStr]

theorem cookieResults_single (E : RegexEngine) (k : String) (pd : PageData) :
    cookieResults E (cookiesOnlyTech k) pd =
      match pd.cookies.find? (fun c => jsToLower c.name == jsToLower k) with
      | some _ => [⟨none, some 100⟩]
      | none => [] := by
  unfold cookieResults cookiesOnlyTech
  cases hv : pd.cookies.find? (fun c => jsToLower c.name == jsToLower k) with
  | none => simp [hv]
  | some ck => simp [hv, Patterns.isEmptyStr]

/-- **C2 amended**: an empty-string signature contributes its full
weight of 100 whenever the corresponding signal key is *present with a
truthy value* — for `js` globals and `cookies` mere presence suffices
(an empty stored value included), while for `meta` and `headers` the
stored value must additionally be non-empty: a key bound to the empty
string is treated as absent and contributes nothing; an absent key
contributes nothing for every type. -/
theorem c2_amended_presence_weight (E : RegexEngine) (k v : String) (jv : JsValue)
    (ck : Cookie) (pd : PageData) (su xu : List String) :
    (pd.headers.lookup (jsToLower k) = some v → v ≠ "" →
      (evalTech E (headersOnlyTech k) pd su xu).totalConfidence = some 100) ∧
    (pd.headers.lookup (jsToLower k) = some "" →
      (evalTech E (headersOnlyTech k) pd su xu).totalConfidence = some 0) ∧
    (pd.headers.lookup (jsToLower k) = none →
      (evalTech E (headersOnlyTech k) pd su xu).totalConfidence = some 0) ∧
    (pd.meta.lookup (jsToLower k) = some v → v ≠ "" →
      (evalTech E (metaOnlyTech k) pd su xu).totalConfidence = some 100) ∧
    (pd.meta.lookup (jsToLower k) = some "" →
      (evalTech E (metaOnlyTech k) pd su xu).totalConfidence = some 0) ∧
    (pd.meta.lookup (jsToLower k) = none →
      (evalTech E (metaOnlyTech k) pd su xu).totalConfidence = some 0) ∧
    (pd.jsGlobals.lookup k = some jv →
      (evalTech E (jsOnlyTech k) pd su xu).totalConfidence = some 100) ∧
    (pd.jsGlobals.lookup k = none →
      (evalTech E (jsOnlyTech k) pd su xu).totalConfidence = some 0) ∧
    (pd.cookies.find? (fun c => jsToLower c.name == jsToLower k) = some ck →
      (evalTech E (cookiesOnlyTech k) pd su xu).totalConfidence = some 100) ∧
    (pd.cookies.find? (fun c => jsToLower c.name == jsToLower k) = none →
      (evalTech E (cookiesOnlyTech k) pd su xu).totalConfidence = some 0) := by
  refine ⟨?_, ?_, ?_, ?_, ?_, ?_, ?_, ?_, ?_, ?_⟩ <;> intro h
  · intro hv
    rw [evalTech_headersOnly, headerResults_single, h]
    simp only [beq_eq_false_iff_ne.mpr hv, Bool.false_eq_true, if_false]
    rfl
  · rw [evalTech_headersOnly, headerResults_single, h]; rfl
  · rw [evalTech_headersOnly, headerResults_single, h]; rfl
  · intro hv
    rw [evalTech_metaOnly, metaResults_single, h]
    simp only [beq_eq_false_iff_ne.mpr hv, Bool.false_eq_true, if_false]
    rfl
  · rw [evalTech_metaOnly, metaResults_single, h]; rfl
  · rw [evalTech_metaOnly, metaResults_single, h]; rfl
  · rw [evalTech_jsOnly, jsResults_single, h]; rfl
  · rw [evalTech_jsOnly, jsResults_single, h]; rfl
  · rw [evalTech_cookiesOnly, cookieResults_single, h]; rfl
  · rw [evalTech_cookiesOnly, cookieResults_single, h]; rfl

/-- An engine whose compiled regexes never match anything. -/
def noMatchEngine : RegexEngine := fun _ => some ⟨fun _ => none⟩

/-- The Shopify presence rule of the spec's end-to-end scenario 2. -/
def shopifyTech : Tech := { headers := some [("x-shopify-stage", .one "")] }

/-- A snapshot whose headers contain the key bound to the empty string. -/
def pdEmptyHeaderVal : PageData := { headers := [("x-shopify-stage", "")] }

/-- **C2 counterexample**: with the `x-shopify-stage` key present but
bound to the empty-string value, the claim (and spec scenario 2:
"snapshot headers include that key with any value → detected at
confidence 100") predicts a confidence-100 detection; the code's
`if (headerValue)` truthiness guard treats the empty-valued key as
absent, contributes nothing, and returns the empty result. -/
theorem c2_counterexample :
    (evalTech noMatchEngine shopifyTech pdEmptyHeaderVal [] []).totalConfidence = some 0 ∧
    detectTechnologies noMatchEngine [("Shopify", shopifyTech)] []
      (PageSource.pure pdEmptyHeaderVal) [] [] = ⟨none, none, []⟩ := by
  constructor
  · decide
  · have h : detectedArrayOf (impliesClosure [("Shopify", shopifyTech)] []
        (mainLoop noMatchEngine [("Shopify", shopifyTech)] []
          (collectPageData (PageSource.pure pdEmptyHeaderVal)) [] [])) = [] := by
      rw [detectedArrayOf_of_sorted (by decide)]
      decide
    rw [detectTechnologies_eval _ _ _ _ _ _ _ h]
    rfl

def c2wpd : PageData :=
  { headers := [("hk", "val")], meta := [("mk", "")],
    jsGlobals := [("g", .str "")], cookies := [⟨"CK", ""⟩] }

/-- Witness for the amended C2: a header key with a non-empty value
contributes 100; a meta key bound to the empty string contributes 0; a
JS global bound to the empty string and a cookie with an empty value
both still contribute 100. -/
theorem c2_amended_witness :
    (evalTech noMatchEngine (headersOnlyTech "HK") c2wpd [] []).totalConfidence = some 100 ∧
    (evalTech noMatchEngine (metaOnlyTech "mk") c2wpd [] []).totalConfidence = some 0 ∧
    (evalTech noMatchEngine (jsOnlyTech "g") c2wpd [] []).totalConfidence = some 100 ∧
    (evalTech noMatchEngine (cookiesOnlyTech "ck") c2wpd [] []).totalConfidence = some 100 := by
  refine ⟨?_, ?_, ?_, ?_⟩
  · exact (c2_amended_presence_weight noMatchEngine "HK" "val" (.str "") ⟨"CK", ""⟩
      c2wpd [] []).1 (by decide) (by decide)
  · exact (c2_amended_presence_weight noMatchEngine "mk" "val" (.str "") ⟨"CK", ""⟩
      c2wpd [] []).2.2.2.2.1 (by decide)
  · exact (c2_amended_presence_weight noMatchEngine "g" "val" (.str "") ⟨"CK", ""⟩
      c2wpd [] []).2.2.2.2.2.2.1 (by decide)
  · exact (c2_amended_presence_weight noMatchEngine "ck" "val" (.str "") ⟨"CK", ""⟩
      c2wpd [] []).2.2.2.2.2.2.2.2.1 (by decide)

/-!
## C9: what a collection failure does to the run
-/

/-- A successful collection roundtrips: `collectPageData` on an
all-succeeding source returns exactly the delivered snapshot. -/
theorem collectPageData_pure (pd : PageData) :
    collectPageData (PageSource.pure pd) = pd := rfl

/-- **C9 amended**: an error raised during page-data collection is
caught inside `collectPageData` itself, which returns the partial
snapshot — every field assigned before the throwing step keeps its
collected value, the rest keep their defaults, and the `scriptUrls` /
`xhrUrls` parameters are untouched — and `detectTechnologies` then
continues exactly as if that partial snapshot had been collected
successfully; the run does not degrade to the empty result because
collection failed, and (the embedding being a total function) no
exception reaches the caller.  The source's outer `catch`, which would
return the empty result, guards only the detection body itself. -/
theorem c9_amended_collection_failure (E : RegexEngine) (techs : TechList)
    (cats : CatTable) (src : PageSource) (su xu : List String) :
    detectTechnologies E techs cats src su xu =
      detectTechnologies E techs cats (PageSource.pure (collectPageData src)) su xu ∧
    (∀ hs, src.headers = Except.ok hs → (collectPageData src).headers = hs) ∧
    (∀ hs cs, src.headers = Except.ok hs → src.cookies = Except.ok cs →
      (collectPageData src).headers = hs ∧ (collectPageData src).cookies = cs) := by
  refine ⟨?_, ?_, ?_⟩
  · simp only [detectTechnologies, collectPageData_pure]
  · intro hs h
    unfold collectPageData
    rw [h]
    cases src.cookies <;> cases src.html <;> cases src.meta <;>
      cases src.jsGlobals <;> cases src.domResults <;> rfl
  · intro hs cs h1 h2
    unfold collectPageData
    rw [h1, h2]
    cases src.html <;> cases src.meta <;> cases src.jsGlobals <;>
      cases src.domResults <;> exact ⟨rfl, rfl⟩

/-- A source that delivers the headers and then throws on every later
step. -/
def c9src : PageSource :=
  { headers := .ok [("x-shopify-stage", "production")], cookies := .error "boom",
    html := .error "boom", meta := .error "boom", jsGlobals := .error "boom",
    domResults := .error "boom" }

/-- **C9 counterexample**: page-data collection throws right after the
headers are assigned, yet the run does not return the empty result —
detection continues on the partial snapshot and still reports Shopify
at confidence 100 from the already-captured header. -/
theorem c9_counterexample :
    detectTechnologies noMatchEngine [("Shopify", shopifyTech)] [] c9src [] [] =
      ⟨none, none, [⟨"Shopify", some 100, none, [], none, none⟩]⟩ ∧
    detectTechnologies noMatchEngine [("Shopify", shopifyTech)] [] c9src [] [] ≠
      emptyOutput := by
  have h : detectedArrayOf (impliesClosure [("Shopify", shopifyTech)] []
      (mainLoop noMatchEngine [("Shopify", shopifyTech)] [] (collectPageData c9src) [] [])) =
      [⟨"Shopify", some 100, none, [], none, none⟩] := by
    rw [detectedArrayOf_of_sorted (by decide)]
    decide
  rw [detectTechnologies_eval _ _ _ _ _ _ _ h]
  exact ⟨rfl, by decide⟩

/-- Witness for the amended C9 at the concrete throwing source. -/
theorem c9_witness :
    detectTechnologies noMatchEngine [("Shopify", shopifyTech)] [] c9src [] [] =
      detectTechnologies noMatchEngine [("Shopify", shopifyTech)] []
        (PageSource.pure (collectPageData c9src)) [] [] ∧
    (collectPageData c9src).headers = [("x-shopify-stage", "production")] := by
  obtain ⟨h1, h2, _⟩ := c9_amended_collection_failure noMatchEngine
    [("Shopify", shopifyTech)] [] c9src [] []
  exact ⟨h1, h2 _ rfl⟩

/-!
## C1: which version survives an evaluation run
-/

/-- The version a contribution actually assigns: `null` when the
produced version is absent or the empty string (the assignment
`if (result.version) detectedVersion = result.version` is guarded by
JavaScript truthiness). -/
def truthyVersion (r : TPResult) : Option String :=
  match r.version with
  | some v => if v == "" then none else some v
  | none => none

theorem updState_version (st : EvalState) (r : TPResult) :
    (updState st r).detectedVersion =
      (truthyVersion r).or st.detectedVersion := by
  unfold updState truthyVersion
  cases hr : r.version with
  | none => rfl
  | some v =>
    by_cases hv : v = ""
    · subst hv; simp
    · simp [beq_eq_false_iff_ne.mpr hv]

theorem foldl_updState_version (rs : List TPResult) (st : EvalState) :
    (rs.foldl updState st).detectedVersion =
      ((rs.filterMap truthyVersion).getLast?).or st.detectedVersion := by
  induction rs using List.reverseRecOn generalizing st with
  | nil => simp
  | append_singleton rs r ih =>
    rw [List.foldl_append, List.foldl_cons, List.foldl_nil, updState_version, ih,
      List.filterMap_append]
    cases hr : truthyVersion r with
    | none =>
      simp only [List.filterMap_cons, hr, List.filterMap_nil, List.append_nil,
        Option.none_or]
    | some v =>
      simp only [List.filterMap_cons, hr, List.filterMap_nil, List.getLast?_concat,
        Option.or_some]

/-- **C1 amended**: the version retained by one evaluation run is the
*last* truthy version produced by any signal evaluation, in the fixed
evaluation order scriptSrc, xhr, meta, js, html, headers, cookies, dom;
every later signal evaluation that yields a version overrides the
version found before it. -/
theorem c1_amended_last_version_wins (E : RegexEngine) (tech : Tech) (pd : PageData)
    (su xu : List String) :
    (evalTech E tech pd su xu).detectedVersion =
      ((signalResults E tech pd su xu).filterMap truthyVersion).getLast? := by
  unfold evalTech
  rw [foldl_updState_version]
  simp

/-- A two-rule table engine: pattern body `p1` matches the URL `u1`
capturing version `1.0`; `p2` matches `u2` capturing `2.0`. -/
def c1Engine : RegexEngine := fun pat =>
  if pat == "p1" then some ⟨fun v => if v == "u1" then some [some "u1", some "1.0"] else none⟩
  else if pat == "p2" then some ⟨fun v => if v == "u2" then some [some "u2", some "2.0"] else none⟩
  else none

/-- A rule with a version-capturing scriptSrc signature and a
version-capturing xhr signature. -/
def c1Tech : Tech :=
  { scriptSrc := some (.one "p1\\;version:\\1"), xhr := some (.one "p2\\;version:\\1") }

/-- **C1 counterexample**: the scriptSrc evaluation (first in order)
produces version `1.0` and the xhr evaluation (second) produces `2.0`;
the claim says the first non-null version `1.0` is retained, but the
code stores `2.0` — a later signal evaluation *does* override an
already-found version. -/
theorem c1_counterexample :
    (signalResults c1Engine c1Tech {} ["u1"] ["u2"]).filterMap truthyVersion =
      ["1.0", "2.0"] ∧
    (evalTech c1Engine c1Tech {} ["u1"] ["u2"]).detectedVersion = some "2.0" ∧
    (detectTechnologies c1Engine [("T", c1Tech)] [] (PageSource.pure {})
      ["u1"] ["u2"]).detectedTechnologies =
      [⟨"T", some 100, some "2.0", [], none, none⟩] := by
  refine ⟨by decide, by decide, ?_⟩
  have h : detectedArrayOf (impliesClosure [("T", c1Tech)] []
      (mainLoop c1Engine [("T", c1Tech)] [] (collectPageData (PageSource.pure {}))
        ["u1"] ["u2"])) =
      [⟨"T", some 100, some "2.0", [], none, none⟩] := by
    rw [detectedArrayOf_of_sorted (by decide)]
    decide
  rw [detectTechnologies_eval _ _ _ _ _ _ _ h]

/-!
## C8: `addOrStrengthen` merge semantics
-/

/-- **C8 counterexample**: merging `(70, "2.0")` into an existing record
`{confidence: 60, version: "1.0"}` stores version `2.0` — the claim
says an already-stored non-null version is never replaced, but
`version || existing?.version || null` gives the *incoming* version
precedence. -/
theorem c8_counterexample :
    (addDetection [] [("T", ⟨"T", some 60, some "1.0", [], none, none⟩)]
        "T" {} (some 70) (some "2.0")).lookup "T" =
      some ⟨"T", some 70, some "2.0", [], none, none⟩ := by decide

/-- **C8 amended**: on a merge into an existing record,
`addOrStrengthen` (the source's `addDetection`) sets the stored
confidence to the maximum of the existing and the new value clamped to
100, and stores the *incoming* version whenever it is truthy — an
already-stored version is replaced by a non-null incoming one, and only
a null (or empty) incoming version falls back to the previously stored
version (normalised through `|| null`). -/
theorem c8_amended_merge (cats : CatTable) (m : DetMap) (k : String) (tech : Tech)
    (c : JsNum) (v : Option String) (e : DetectionRecord)
    (he : m.lookup k = some e) :
    ∃ r, (addDetection cats m k tech c v).lookup k = some r ∧
      r.confidence = jmin (jmax e.confidence c) (some 100) ∧
      (∀ v0, v = some v0 → v0 ≠ "" → r.version = some v0) ∧
      (v = none → r.version = jsOrNull e.version) ∧
      (v = some "" → r.version = jsOrNull e.version) := by
  have hl : (addDetection cats m k tech c v).lookup k = some
      { name := k
        confidence := jmin (jmax e.confidence c) (some 100)
        version := jsVersionMerge v e.version
        categories := tech.cats.map (fun catId => ⟨catId, catNameOf cats catId⟩)
        website := jsOrNull tech.website
        icon := jsOrNull tech.icon } := by
    simp only [addDetection, he]
    exact lookup_mapSet_self _ _ _
  refine ⟨_, hl, rfl, ?_, ?_, ?_⟩
  · intro v0 hv0 hne
    subst hv0
    simp [jsVersionMerge, beq_eq_false_iff_ne.mpr hne]
  · intro hv0; subst hv0; rfl
  · intro hv0; subst hv0; rfl

/-- Witness for the amended C8 at the concrete merge of the
counterexample. -/
theorem c8_amended_witness :
    ∃ r, (addDetection [] [("T", ⟨"T", some 60, some "1.0", [], none, none⟩)]
        "T" {} (some 70) (some "2.0")).lookup "T" = some r ∧
      r.confidence = jmin (jmax (some 60) (some 70)) (some 100) ∧
      (∀ v0, (some "2.0" : Option String) = some v0 → v0 ≠ "" → r.version = some v0) ∧
      ((some "2.0" : Option String) = none → r.version = jsOrNull (some "1.0")) ∧
      ((some "2.0" : Option String) = some "" → r.version = jsOrNull (some "1.0")) :=
  c8_amended_merge [] [("T", ⟨"T", some 60, some "1.0", [], none, none⟩)]
    "T" {} (some 70) (some "2.0") ⟨"T", some 60, some "1.0", [], none, none⟩ (by decide)

/-!
## C4 and C5: the implication closure

The `for…of` pass is analysed through `processImplies_spec` (one
entry's effect is an append of fresh store keys), `goPass_run` (a live
pass terminates within its fuel and leaves an implies-closed map) and
`goPass_of_closed` (a pass over a closed map is the identity).
-/

/-- The implied technology names one detected entry contributes
(after the `tech?.implies` truthiness guard and the
`\\;confidence:` parsing). -/
def impliedNames (techs : TechList) (techName : String) : List String :=
  match techs.lookup techName with
  | none => []
  | some tech =>
    match tech.implies with
    | some impl => if impl.isFalsy then [] else impl.toList.map (fun s => (parseImplied s).1)
    | none => []

/-- A detection map closed under the store's implies edges. -/
def Closed (techs : TechList) (m : DetMap) : Prop :=
  ∀ p ∈ m, ∀ nm ∈ impliedNames techs p.1, (techs.lookup nm).isSome → nm ∈ keysOf m

theorem addImplied_spec (techs : TechList) (cats : CatTable) (acc : DetMap × Bool)
    (s : String) :
    ∃ ext, (addImplied techs cats acc s).1 = acc.1 ++ ext ∧
      (keysOf ext).Nodup ∧
      (∀ k ∈ keysOf ext, k ∉ keysOf acc.1 ∧ (techs.lookup k).isSome) ∧
      ((addImplied techs cats acc s).2 = true → acc.2 = true ∨ ext ≠ []) ∧
      ((techs.lookup (parseImplied s).1).isSome →
        (parseImplied s).1 ∈ keysOf (addImplied techs cats acc s).1) := by
  cases h1 : (acc.1.lookup (parseImplied s).1).isNone with
  | false =>
    have hmem : (parseImplied s).1 ∈ keysOf acc.1 :=
      mem_keysOf_iff_lookup_isSome.mpr (by
        cases h : acc.1.lookup (parseImplied s).1
        · rw [h] at h1; simp at h1
        · simp)
    have heq : addImplied techs cats acc s = acc := by
      unfold addImplied
      simp [h1]
    refine ⟨[], by simp [heq], by simp [keysOf], by simp [keysOf],
      by rw [heq]; exact fun h => Or.inl h, fun _ => ?_⟩
    rw [heq]
    exact hmem
  | true =>
    have habs : acc.1.lookup (parseImplied s).1 = none := by
      cases h : acc.1.lookup (parseImplied s).1
      · rfl
      · rw [h] at h1; simp at h1
    cases h2 : techs.lookup (parseImplied s).1 with
    | none =>
      have heq : addImplied techs cats acc s = acc := by
        unfold addImplied
        simp [h1, h2]
      refine ⟨[], by simp [heq], by simp [keysOf], by simp [keysOf],
        by rw [heq]; exact fun h => Or.inl h, fun hs => ?_⟩
      simp at hs
    | some t =>
      have heq : addImplied techs cats acc s =
          (addDetection cats acc.1 (parseImplied s).1 t (parseImplied s).2 none, true) := by
        unfold addImplied
        simp [h1, h2]
      have hadd := addDetection_absent cats acc.1 (parseImplied s).1 t (parseImplied s).2
        none habs
      refine ⟨[((parseImplied s).1,
        { name := (parseImplied s).1
          confidence := jmin (parseImplied s).2 (some 100)
          version := jsVersionMerge none none
          categories := t.cats.map (fun catId => ⟨catId, catNameOf cats catId⟩)
          website := jsOrNull t.website
          icon := jsOrNull t.icon })], ?_, by simp [keysOf], ?_, ?_, ?_⟩
      · rw [heq, hadd]
      · intro k hk
        simp only [keysOf, List.map_cons, List.map_nil, List.mem_singleton] at hk
        subst hk
        refine ⟨fun hmem => ?_, by simp [h2]⟩
        rw [mem_keysOf_iff_lookup_isSome, habs] at hmem
        simp at hmem
      · intro _; exact Or.inr (by simp)
      · intro _
        rw [heq, hadd, keysOf_append]
        simp [keysOf]

theorem foldl_addImplied_spec (techs : TechList) (cats : CatTable) (ss : List String)
    (acc : DetMap × Bool) :
    ∃ ext, (ss.foldl (addImplied techs cats) acc).1 = acc.1 ++ ext ∧
      (keysOf ext).Nodup ∧
      (∀ k ∈ keysOf ext, k ∉ keysOf acc.1 ∧ (techs.lookup k).isSome) ∧
      ((ss.foldl (addImplied techs cats) acc).2 = true → acc.2 = true ∨ ext ≠ []) ∧
      (∀ s ∈ ss, (techs.lookup (parseImplied s).1).isSome →
        (parseImplied s).1 ∈ keysOf (ss.foldl (addImplied techs cats) acc).1) := by
  induction ss generalizing acc with
  | nil => exact ⟨[], by simp, by simp, by simp, by simp, by simp⟩
  | cons s ss ih =>
    obtain ⟨ext₁, he₁, hn₁, hk₁, hf₁, hm₁⟩ := addImplied_spec techs cats acc s
    obtain ⟨ext₂, he₂, hn₂, hk₂, hf₂, hm₂⟩ := ih (addImplied techs cats acc s)
    have hmono : ∀ k, k ∈ keysOf (addImplied techs cats acc s).1 →
        k ∈ keysOf (ss.foldl (addImplied techs cats) (addImplied techs cats acc s)).1 := by
      intro k hk
      rw [he₂, keysOf_append]
      exact List.mem_append.mpr (Or.inl hk)
    refine ⟨ext₁ ++ ext₂, ?_, ?_, ?_, ?_, ?_⟩
    · rw [List.foldl_cons, he₂, he₁, List.append_assoc]
    · rw [keysOf_append, List.nodup_append]
      refine ⟨hn₁, hn₂, ?_⟩
      intro k hk hk2
      have := (hk₂ k hk2).1
      rw [he₁, keysOf_append] at this
      exact this (List.mem_append.mpr (Or.inr hk))
    · intro k hk
      rw [keysOf_append] at hk
      rcases List.mem_append.mp hk with h | h
      · exact hk₁ k h
      · refine ⟨fun hmem => ?_, (hk₂ k h).2⟩
        exact (hk₂ k h).1 (by rw [he₁, keysOf_append]; exact List.mem_append.mpr (Or.inl hmem))
    · rw [List.foldl_cons]
      intro h
      rcases hf₂ h with h' | h'
      · rcases hf₁ h' with h'' | h''
        · exact Or.inl h''
        · exact Or.inr (by simp [h''])
      · exact Or.inr (by
          intro hc
          exact h' (List.append_eq_nil.mp hc).2)
    · intro s' hs'
      rw [List.foldl_cons]
      rcases List.mem_cons.mp hs' with rfl | hs'
      · intro hsome
        exact hmono _ (hm₁ hsome)
      · exact hm₂ s' hs'

theorem processImplies_spec (techs : TechList) (cats : CatTable) (m : DetMap)
    (techName : String) :
    ∃ ext, (processImplies techs cats m techName).1 = m ++ ext ∧
      (keysOf ext).Nodup ∧
      (∀ k ∈ keysOf ext, k ∉ keysOf m ∧ (techs.lookup k).isSome) ∧
      ((processImplies techs cats m techName).2 = true → ext ≠ []) ∧
      (∀ nm ∈ impliedNames techs techName, (techs.lookup nm).isSome →
        nm ∈ keysOf (processImplies techs cats m techName).1) := by
  unfold processImplies impliedNames
  cases h1 : techs.lookup techName with
  | none => exact ⟨[], by simp [h1], by simp, by simp, by simp [h1], by simp [h1]⟩
  | some tech =>
    cases h2 : tech.implies with
    | none => exact ⟨[], by simp [h1, h2], by simp, by simp, by simp [h1, h2], by simp [h1, h2]⟩
    | some impl =>
      cases h3 : impl.isFalsy with
      | true => exact ⟨[], by simp [h1, h2, h3], by simp, by simp, by simp [h1, h2, h3], by simp [h1, h2, h3]⟩
      | false =>
        obtain ⟨ext, he, hn, hk, hf, hm⟩ := foldl_addImplied_spec techs cats impl.toList (m, false)
        refine ⟨ext, by simpa [h1, h2, h3] using he, hn, hk, ?_, ?_⟩
        · simp only [h1, h2, h3, Bool.false_eq_true, if_false]
          intro h
          rcases hf h with h' | h'
          · simp at h'
          · exact h'
        · simp only [h1, h2, h3, Bool.false_eq_true, if_false]
          intro nm hnm
          obtain ⟨s, hs, rfl⟩ := List.mem_map.mp hnm
          exact hm s hs

theorem processImplies_of_present (techs : TechList) (cats : CatTable) (m : DetMap)
    (techName : String)
    (h : ∀ nm ∈ impliedNames techs techName, (techs.lookup nm).isSome → nm ∈ keysOf m) :
    processImplies techs cats m techName = (m, false) := by
  unfold processImplies
  cases h1 : techs.lookup techName with
  | none => simp [h1]
  | some tech =>
    cases h2 : tech.implies with
    | none => simp [h1, h2]
    | some impl =>
      cases h3 : impl.isFalsy with
      | true => simp [h1, h2, h3]
      | false =>
        simp only [h1, h2, h3, Bool.false_eq_true, if_false]
        have key : ∀ ss : List String, (∀ s ∈ ss, (techs.lookup (parseImplied s).1).isSome →
            (parseImplied s).1 ∈ keysOf m) →
            ss.foldl (addImplied techs cats) (m, false) = (m, false) := by
          intro ss
          induction ss with
          | nil => intro _; rfl
          | cons s ss ih =>
            intro hss
            rw [List.foldl_cons]
            have hstep : addImplied techs cats (m, false) s = (m, false) := by
              cases h4 : techs.lookup (parseImplied s).1 with
              | none =>
                unfold addImplied
                cases h5 : (m.lookup (parseImplied s).1).isNone <;> simp [h4, h5]
              | some t =>
                have hmem : (parseImplied s).1 ∈ keysOf m :=
                  hss s (by simp) (by simp [h4])
                have h5 : (m.lookup (parseImplied s).1).isNone = false := by
                  have := mem_keysOf_iff_lookup_isSome.mp hmem
                  cases hl : m.lookup (parseImplied s).1
                  · rw [hl] at this; simp at this
                  · rfl
                unfold addImplied
                simp [h5]
            rw [hstep]
            exact ih (fun s' hs' => hss s' (List.mem_cons_of_mem _ hs'))
        apply key
        intro s hs
        apply h
        unfold impliedNames
        simp only [h1, h2, h3, Bool.false_eq_true, if_false]
        exact List.mem_map_of_mem _ hs

/-- A live pass over an implies-closed map changes nothing: every step
is a no-op and the index just walks off the end. -/
theorem goPass_of_closed (techs : TechList) (cats : CatTable) (m : DetMap)
    (hc : Closed techs m) :
    ∀ (fuel i : Nat) (ch : Bool), goPass techs cats fuel m i ch = (m, ch) := by
  intro fuel
  induction fuel with
  | zero => intro i ch; rfl
  | succ fuel ih =>
    intro i ch
    simp only [goPass]
    by_cases h : i < m.length
    · rw [dif_pos h]
      have hp : processImplies techs cats m (m.get ⟨i, h⟩).1 = (m, false) := by
        apply processImplies_of_present
        intro nm hnm hsome
        exact hc (m.get ⟨i, h⟩) (List.get_mem m i h) nm hnm hsome
      simp only [hp, Bool.or_false]
      exact ih (i + 1) ch
    · rw [dif_neg h]

/-- A live pass, given enough fuel relative to a key-universe `K`,
terminates by walking off the end of the (grown) map, appends only
fresh store keys, and leaves an implies-closed map. -/
theorem goPass_run (techs : TechList) (cats : CatTable) (K : List String)
    (hTK : ∀ k, (techs.lookup k).isSome → k ∈ K) :
    ∀ (fuel : Nat) (m : DetMap) (i : Nat) (ch : Bool),
      (keysOf m).Nodup → (∀ k ∈ keysOf m, k ∈ K) →
      K.length + 1 ≤ fuel + i →
      (∀ (j : Nat) (hj : j < m.length), j < i →
        ∀ nm ∈ impliedNames techs (m.get ⟨j, hj⟩).1, (techs.lookup nm).isSome →
          nm ∈ keysOf m) →
      (∃ ext, (goPass techs cats fuel m i ch).1 = m ++ ext) ∧
      (keysOf (goPass techs cats fuel m i ch).1).Nodup ∧
      (∀ k ∈ keysOf (goPass techs cats fuel m i ch).1, k ∈ K) ∧
      Closed techs (goPass techs cats fuel m i ch).1 ∧
      ((goPass techs cats fuel m i ch).2 = true → ch = true ∨
        ∃ k, k ∈ keysOf (goPass techs cats fuel m i ch).1 ∧
          k ∉ keysOf m ∧ (techs.lookup k).isSome) := by
  intro fuel
  induction fuel with
  | zero =>
    intro m i ch hnd hsub hfuel hproc
    have hlen : m.length ≤ K.length := by
      have h1 : (keysOf m).length ≤ K.length :=
        (List.subperm_of_subset hnd hsub).length_le
      simpa [keysOf] using h1
    have hclosed : Closed techs m := by
      intro p hp nm hnm hsome
      obtain ⟨⟨j, hj⟩, rfl⟩ := List.mem_iff_get.mp hp
      exact hproc j hj (by omega) nm hnm hsome
    exact ⟨⟨[], by simp [goPass]⟩, hnd, hsub, hclosed, fun h => Or.inl (by simpa [goPass] using h)⟩
  | succ fuel ih =>
    intro m i ch hnd hsub hfuel hproc
    by_cases h : i < m.length
    · obtain ⟨ext, he, hn, hk, hf, hm⟩ := processImplies_spec techs cats m (m.get ⟨i, h⟩).1
      have hgo : goPass techs cats (fuel + 1) m i ch =
          goPass techs cats fuel (processImplies techs cats m (m.get ⟨i, h⟩).1).1 (i + 1)
            (ch || (processImplies techs cats m (m.get ⟨i, h⟩).1).2) := by
        simp only [goPass]
        rw [dif_pos h]
      have hnd₂ : (keysOf (processImplies techs cats m (m.get ⟨i, h⟩).1).1).Nodup := by
        rw [he, keysOf_append, List.nodup_append]
        exact ⟨hnd, hn, fun k hk1 hk2 => (hk k hk2).1 hk1⟩
      have hsub₂ : ∀ k ∈ keysOf (processImplies techs cats m (m.get ⟨i, h⟩).1).1, k ∈ K := by
        intro k hkm
        rw [he, keysOf_append] at hkm
        rcases List.mem_append.mp hkm with h' | h'
        · exact hsub k h'
        · exact hTK k (hk k h').2
      have hkeysmono : ∀ k ∈ keysOf m,
          k ∈ keysOf (processImplies techs cats m (m.get ⟨i, h⟩).1).1 := by
        intro k hkm
        rw [he, keysOf_append]
        exact List.mem_append.mpr (Or.inl hkm)
      have hproc₂ : ∀ (j : Nat) (hj : j < (processImplies techs cats m (m.get ⟨i, h⟩).1).1.length),
          j < i + 1 →
          ∀ nm ∈ impliedNames techs ((processImplies techs cats m (m.get ⟨i, h⟩).1).1.get ⟨j, hj⟩).1,
            (techs.lookup nm).isSome →
            nm ∈ keysOf (processImplies techs cats m (m.get ⟨i, h⟩).1).1 := by
        intro j hj hji nm hnm hsome
        have hjm : j < m.length := by omega
        have hget : ((processImplies techs cats m (m.get ⟨i, h⟩).1).1.get ⟨j, hj⟩) =
            m.get ⟨j, hjm⟩ := by
          rw [List.get_of_eq he ⟨j, hj⟩]
          exact List.get_append j hjm
        rw [hget] at hnm
        by_cases hji' : j < i
        · exact hkeysmono nm (hproc j hjm hji' nm hnm hsome)
        · have hjeq : j = i := by omega
          subst hjeq
          have : m.get ⟨j, hjm⟩ = m.get ⟨j, h⟩ := rfl
          rw [this] at hnm
          exact hm nm hnm hsome
      have hfuel₂ : K.length + 1 ≤ fuel + (i + 1) := by omega
      obtain ⟨⟨ext₂, he₂⟩, hnd₃, hsub₃, hclosed₃, hflag₃⟩ :=
        ih (processImplies techs cats m (m.get ⟨i, h⟩).1).1 (i + 1)
          (ch || (processImplies techs cats m (m.get ⟨i, h⟩).1).2) hnd₂ hsub₂ hfuel₂ hproc₂
      rw [hgo]
      refine ⟨⟨ext ++ ext₂, by rw [he₂, he, List.append_assoc]⟩, hnd₃, hsub₃, hclosed₃, ?_⟩
      intro hflag
      rcases hflag₃ hflag with h' | h'
      · rcases Bool.or_eq_true_iff.mp h' with h'' | h''
        · exact Or.inl h''
        · have hkeys : keysOf ext ≠ [] := fun hc => hf h'' (by simpa [keysOf] using hc)
          obtain ⟨k, hk1⟩ := List.exists_mem_of_ne_nil _ hkeys
          refine Or.inr ⟨k, ?_, (hk k hk1).1, (hk k hk1).2⟩
          rw [he₂, keysOf_append]
          refine List.mem_append.mpr (Or.inl ?_)
          rw [he, keysOf_append]
          exact List.mem_append.mpr (Or.inr hk1)
      · obtain ⟨k, hk1, hk2, hk3⟩ := h'
        refine Or.inr ⟨k, hk1, fun hkm => hk2 (hkeysmono k hkm), hk3⟩
    · have hgo : goPass techs cats (fuel + 1) m i ch = (m, ch) := by
        simp only [goPass]
        rw [dif_neg h]
      have hclosed : Closed techs m := by
        intro p hp nm hnm hsome
        obtain ⟨⟨j, hj⟩, rfl⟩ := List.mem_iff_get.mp hp
        exact hproc j hj (by omega) nm hnm hsome
      rw [hgo]
      exact ⟨⟨[], by simp⟩, hnd, hsub, hclosed, fun hf => Or.inl hf⟩

/-- One full pass: append-only growth by fresh store keys, key
uniqueness, closedness, and a fresh store key behind any `changed`
flag. -/
theorem onePass_spec (techs : TechList) (cats : CatTable) (m : DetMap)
    (hm : (keysOf m).Nodup) :
    (∃ ext, (onePass techs cats m).1 = m ++ ext) ∧
    (keysOf (onePass techs cats m).1).Nodup ∧
    Closed techs (onePass techs cats m).1 ∧
    ((onePass techs cats m).2 = true →
      ∃ k, k ∈ keysOf (onePass techs cats m).1 ∧ k ∉ keysOf m ∧
        (techs.lookup k).isSome) := by
  unfold onePass
  have hKnd : ((keysOf m ++ techs.map Prod.fst).dedup).Nodup := List.nodup_dedup _
  have hTK : ∀ k, (techs.lookup k).isSome →
      k ∈ (keysOf m ++ techs.map Prod.fst).dedup := by
    intro k hk
    rw [List.mem_dedup]
    refine List.mem_append.mpr (Or.inr ?_)
    rw [List.lookup_isSome_iff] at hk
    obtain ⟨p, hp, hpk⟩ := hk
    exact (eq_of_beq hpk) ▸ List.mem_map_of_mem _ hp
  have hsub : ∀ k ∈ keysOf m, k ∈ (keysOf m ++ techs.map Prod.fst).dedup := by
    intro k hk
    rw [List.mem_dedup]
    exact List.mem_append.mpr (Or.inl hk)
  have hfuel : ((keysOf m ++ techs.map Prod.fst).dedup).length + 1 ≤
      (m.length + techs.length + 1) + 0 := by
    have h1 : ((keysOf m ++ techs.map Prod.fst).dedup).length ≤
        (keysOf m ++ techs.map Prod.fst).length :=
      (List.dedup_sublist _).length_le
    have h2 : (keysOf m ++ techs.map Prod.fst).length = m.length + techs.length := by
      simp [keysOf]
    omega
  exact
    (fun ⟨hext, hnd, _, hclosed, hflag⟩ =>
      ⟨hext, hnd, hclosed, fun h => (hflag h).resolve_left (by simp)⟩)
    (goPass_run techs cats _ hTK (m.length + techs.length + 1) m 0 false hm hsub hfuel
      (fun j hj hji => absurd hji (by omega)))

/-- The while loop exits after one pass over a closed map. -/
theorem closureLoop_of_closed (techs : TechList) (cats : CatTable) (m : DetMap)
    (hc : Closed techs m) (fuel : Nat) (hf : 1 ≤ fuel) :
    closureLoop techs cats fuel m = (m, 1) := by
  cases fuel with
  | zero => omega
  | succ fuel =>
    have h1 : onePass techs cats m = (m, false) := by
      unfold onePass
      exact goPass_of_closed techs cats m hc _ _ _
    simp [closureLoop, h1]

/-- The while loop saturates in the first pass and needs at most a
second, confirming pass. -/
theorem closureLoop_spec (techs : TechList) (cats : CatTable) (m : DetMap)
    (hm : (keysOf m).Nodup) (fuel : Nat) (hf : 2 ≤ fuel) :
    closureLoop techs cats fuel m =
      ((onePass techs cats m).1, if (onePass techs cats m).2 then 2 else 1) := by
  obtain ⟨_, hnd₁, hclosed₁, _⟩ := onePass_spec techs cats m hm
  cases fuel with
  | zero => omega
  | succ fuel =>
    simp only [closureLoop]
    cases hp : (onePass techs cats m).2 with
    | false => simp [hp]
    | true =>
      have h2 : closureLoop techs cats fuel (onePass techs cats m).1 =
          ((onePass techs cats m).1, 1) :=
        closureLoop_of_closed techs cats _ hclosed₁ fuel (by omega)
      simp [hp, h2]

theorem impliesClosure_eq_onePass (techs : TechList) (cats : CatTable) (m : DetMap)
    (hm : (keysOf m).Nodup) :
    impliesClosure techs cats m = (onePass techs cats m).1 := by
  show (closureLoop techs cats (techs.length + 2) m).1 = _
  rw [closureLoop_spec techs cats m hm _ (by omega)]

/-- **C4 amended**: for every finite store — cyclic implies graphs
included — and every key-unique detection map, the implication-closure
loop terminates at a genuine fixpoint (one further pass changes nothing
and reports no change), the number of `while (changed)` passes is
bounded by the store size *plus one*, and every technology ends up in
the result map exactly once (the key list stays duplicate-free). -/
theorem c4_amended_closure_termination (techs : TechList) (cats : CatTable)
    (m : DetMap) (hm : (keysOf m).Nodup) :
    onePass techs cats (impliesClosure techs cats m) =
      (impliesClosure techs cats m, false) ∧
    closurePasses techs cats m ≤ techs.length + 1 ∧
    (keysOf (impliesClosure techs cats m)).Nodup := by
  obtain ⟨_, hnd₁, hclosed₁, hflag₁⟩ := onePass_spec techs cats m hm
  have hceq : impliesClosure techs cats m = (onePass techs cats m).1 :=
    impliesClosure_eq_onePass techs cats m hm
  refine ⟨?_, ?_, ?_⟩
  · rw [hceq]
    unfold onePass
    exact goPass_of_closed techs cats _ hclosed₁ _ _ _
  · show (closureLoop techs cats (techs.length + 2) m).2 ≤ techs.length + 1
    rw [closureLoop_spec techs cats m hm _ (by omega)]
    cases hp : (onePass techs cats m).2 with
    | false => simp
    | true =>
      obtain ⟨k, _, _, hsome⟩ := hflag₁ hp
      have hte : techs ≠ [] := by
        intro hte
        subst hte
        simp at hsome
      have hlen : 1 ≤ techs.length := by
        cases techs with
        | nil => exact absurd rfl hte
        | cons t ts => simp
      simp only [if_true]
      omega
  · rw [hceq]
    exact hnd₁

/-- **C4 counterexample**: on the empty store the loop still executes
one pass, so the pass count is not bounded by the store size. -/
theorem c4_counterexample :
    closurePasses [] [] [] = 1 ∧ ¬ (closurePasses [] [] [] ≤ ([] : TechList).length) := by
  decide

/-- The cyclic two-rule store of the spec's termination scenario:
A implies B and B implies A. -/
def cycTechA : Tech := { headers := some [("h", .one "")], implies := some (.one "B") }

def cycTechB : Tech := { implies := some (.one "A") }

def cycTechs : TechList := [("A", cycTechA), ("B", cycTechB)]

def cycM : DetMap := [("A", ⟨"A", some 100, none, [], none, none⟩)]

/-- Witness for the amended C4 on the cyclic store: the closure is a
fixpoint, the loop ran within the bound, and A and B each appear
exactly once. -/
theorem c4_witness :
    onePass cycTechs [] (impliesClosure cycTechs [] cycM) =
      (impliesClosure cycTechs [] cycM, false) ∧
    closurePasses cycTechs [] cycM ≤ cycTechs.length + 1 ∧
    (keysOf (impliesClosure cycTechs [] cycM)).Nodup :=
  c4_amended_closure_termination cycTechs [] cycM (by decide)

/-- **C5** (confirmed): the implication closure is idempotent — running
the `while (changed)` resolver again on the fixpoint produced by the
first run returns the very same map, adding no technology and changing
no record. -/
theorem c5_closure_idempotent (techs : TechList) (cats : CatTable) (m : DetMap)
    (hm : (keysOf m).Nodup) :
    impliesClosure techs cats (impliesClosure techs cats m) =
      impliesClosure techs cats m := by
  obtain ⟨_, hnd₁, hclosed₁, _⟩ := onePass_spec techs cats m hm
  have hceq : impliesClosure techs cats m = (onePass techs cats m).1 :=
    impliesClosure_eq_onePass techs cats m hm
  have hclosed : Closed techs (impliesClosure techs cats m) := by
    rw [hceq]
    exact hclosed₁
  have hloop : closureLoop techs cats (techs.length + 2) (impliesClosure techs cats m) =
      (impliesClosure techs cats m, 1) :=
    closureLoop_of_closed techs cats _ hclosed _ (by omega)
  show (closureLoop techs cats (techs.length + 2) (impliesClosure techs cats m)).1 = _
  rw [hloop]

/-- A three-rule chain store (A implies B, B implies C). -/
def chainTechs : TechList :=
  [("A", ({ implies := some (.one "B") } : Tech)),
   ("B", ({ implies := some (.one "C") } : Tech)),
   ("C", ({} : Tech))]

def chainM : DetMap := [("A", ⟨"A", some 100, none, [], none, none⟩)]

/-- Witness for C5 on the chain store. -/
theorem c5_witness :
    impliesClosure chainTechs [] (impliesClosure chainTechs [] chainM) =
      impliesClosure chainTechs [] chainM :=
  c5_closure_idempotent chainTechs [] chainM (by decide)

/-!
## C3: output confidences stay in range

The clamp invariant (`Math.min(…, 100)` on every stored record) is
propagated through the aggregation loop and the closure; the output
filter supplies the lower bound.
-/

theorem foldl_conf100 {β : Type} (f : DetMap → β → DetMap)
    (hf : ∀ (m : DetMap) (b : β), Conf100Map m → Conf100Map (f m b)) :
    ∀ (l : List β) (m : DetMap), Conf100Map m → Conf100Map (l.foldl f m) := by
  intro l
  induction l with
  | nil => intro m h; exact h
  | cons b l ih => intro m h; exact ih _ (hf m b h)

theorem mainLoop_conf100 (E : RegexEngine) (techs : TechList) (cats : CatTable)
    (pd : PageData) (su xu : List String) :
    Conf100Map (mainLoop E techs cats pd su xu) := by
  unfold mainLoop
  refine foldl_conf100 _ ?_ techs [] (by intro p hp; simp at hp)
  intro m entry h
  dsimp only
  split
  · exact addDetection_conf100 h
  · exact h

theorem addImplied_conf100 (techs : TechList) (cats : CatTable) (acc : DetMap × Bool)
    (s : String) (h : Conf100Map acc.1) : Conf100Map (addImplied techs cats acc s).1 := by
  unfold addImplied
  cases h1 : (acc.1.lookup (parseImplied s).1).isNone with
  | false => simpa [h1] using h
  | true =>
    cases h2 : techs.lookup (parseImplied s).1 with
    | none => simpa [h1, h2] using h
    | some t =>
      have : (addImplied techs cats acc s).1 =
          addDetection cats acc.1 (parseImplied s).1 t (parseImplied s).2 none := by
        unfold addImplied
        simp [h1, h2]
      simpa [h1, h2] using addDetection_conf100 h

theorem processImplies_conf100 (techs : TechList) (cats : CatTable) (m : DetMap)
    (techName : String) (h : Conf100Map m) :
    Conf100Map (processImplies techs cats m techName).1 := by
  unfold processImplies
  cases h1 : techs.lookup techName with
  | none => simpa [h1] using h
  | some tech =>
    cases h2 : tech.implies with
    | none => simpa [h1, h2] using h
    | some impl =>
      cases h3 : impl.isFalsy with
      | true => simpa [h1, h2, h3] using h
      | false =>
        simp only [h1, h2, h3, Bool.false_eq_true, if_false]
        have key : ∀ (ss : List String) (acc : DetMap × Bool), Conf100Map acc.1 →
            Conf100Map (ss.foldl (addImplied techs cats) acc).1 := by
          intro ss
          induction ss with
          | nil => intro acc h; exact h
          | cons s ss ih => intro acc h; exact ih _ (addImplied_conf100 techs cats acc s h)
        exact key _ (m, false) h

theorem goPass_conf100 (techs : TechList) (cats : CatTable) :
    ∀ (fuel : Nat) (m : DetMap) (i : Nat) (ch : Bool), Conf100Map m →
      Conf100Map (goPass techs cats fuel m i ch).1 := by
  intro fuel
  induction fuel with
  | zero => intro m i ch h; exact h
  | succ fuel ih =>
    intro m i ch h
    simp only [goPass]
    by_cases hlt : i < m.length
    · rw [dif_pos hlt]
      exact ih _ _ _ (processImplies_conf100 techs cats m _ h)
    · rw [dif_neg hlt]
      exact h

theorem closureLoop_conf100 (techs : TechList) (cats : CatTable) :
    ∀ (fuel : Nat) (m : DetMap), Conf100Map m →
      Conf100Map (closureLoop techs cats fuel m).1 := by
  intro fuel
  induction fuel with
  | zero => intro m h; exact h
  | succ fuel ih =>
    intro m h
    simp only [closureLoop]
    have hp : Conf100Map (onePass techs cats m).1 :=
      goPass_conf100 techs cats _ m 0 false h
    split
    · exact ih _ hp
    · exact hp

/-- **C3** (confirmed): every record of the returned
`detectedTechnologies` list carries a confidence that is an integer
`some n` with `0 ≤ n`, `50 ≤ n` (the output filter's floor) and
`n ≤ 100` (the per-record clamp at recording time). -/
theorem c3_confidence_in_range (E : RegexEngine) (techs : TechList) (cats : CatTable)
    (src : PageSource) (su xu : List String) (d : DetectionRecord)
    (hd : d ∈ (detectTechnologies E techs cats src su xu).detectedTechnologies) :
    ∃ n : Int, d.confidence = some n ∧ 0 ≤ n ∧ 50 ≤ n ∧ n ≤ 100 := by
  simp only [detectTechnologies] at hd
  unfold detectedArrayOf at hd
  have hd' := List.mem_mergeSort.mp hd
  obtain ⟨hmem, hge⟩ := List.mem_filter.mp hd'
  cases hc : d.confidence with
  | none => rw [hc] at hge; simp [jge50] at hge
  | some n =>
    have h50 : (50 : Int) ≤ n := by
      rw [hc] at hge
      simpa [jge50] using hge
    have hinv : Conf100Map (impliesClosure techs cats
        (mainLoop E techs cats (collectPageData src) su xu)) :=
      closureLoop_conf100 techs cats _ _
        (mainLoop_conf100 E techs cats (collectPageData src) su xu)
    obtain ⟨p, hp, rfl⟩ := List.mem_map.mp hmem
    exact ⟨n, rfl, by omega, h50, hinv p hp n hc⟩

def c3techs : TechList := [("Shopify", shopifyTech)]

def c3pd : PageData := { headers := [("x-shopify-stage", "production")] }

/-- Witness for C3 at a concrete detected record. -/
theorem c3_witness :
    ∃ n : Int,
      (⟨"Shopify", some 100, none, [], none, none⟩ : DetectionRecord).confidence = some n ∧
      0 ≤ n ∧ 50 ≤ n ∧ n ≤ 100 := by
  refine c3_confidence_in_range noMatchEngine c3techs [] (PageSource.pure c3pd) [] []
    ⟨"Shopify", some 100, none, [], none, none⟩ ?_
  simp only [detectTechnologies]
  unfold detectedArrayOf
  exact List.mem_mergeSort.mpr (by decide)

/-!
## C6: the finalized list — floor, order, stability
-/

theorem jle_refl (a : JsNum) : jle a a = true := by
  cases a with
  | none => rfl
  | some n => simp [jle]

theorem jle_trans {a b c : JsNum} (h1 : jle a b = true) (h2 : jle b c = true) :
    jle a c = true := by
  cases a <;> cases b <;> cases c <;> simp_all [jle] <;> omega

theorem jle_total (a b : JsNum) : jle a b || jle b a := by
  cases a <;> cases b <;> simp [jle] <;> omega

theorem leConfDesc_trans : ∀ (a b c : DetectionRecord),
    leConfDesc a b → leConfDesc b c → leConfDesc a c :=
  fun _ _ _ h1 h2 => jle_trans h2 h1

theorem leConfDesc_total : ∀ (a b : DetectionRecord), leConfDesc a b || leConfDesc b a :=
  fun a b => jle_total b.confidence a.confidence

/-- **C6** (confirmed): the finalized list is exactly the records with
confidence ≥ 50 (none below the floor appears, and it is a permutation
of the filtered values), sorted descending by confidence, with a stable
tie-break — the records of any fixed confidence keep, as a sublist, the
order in which their technologies were first detected; removing the
floor can only preserve or increase the candidate count. -/
theorem c6_floor_sort_stable (m : DetMap) :
    (∀ d ∈ detectedArrayOf m, jge50 d.confidence = true) ∧
    (detectedArrayOf m).Perm ((m.map Prod.snd).filter (fun d => jge50 d.confidence)) ∧
    (detectedArrayOf m).Pairwise (fun a b => leConfDesc a b = true) ∧
    (∀ c : JsNum, (((m.map Prod.snd).filter (fun d => jge50 d.confidence)).filter
        (fun d => d.confidence == c)).Sublist (detectedArrayOf m)) ∧
    (detectedArrayOf m).length ≤ ((m.map Prod.snd).mergeSort leConfDesc).length := by
  refine ⟨?_, ?_, ?_, ?_, ?_⟩
  · intro d hd
    exact (List.mem_filter.mp (List.mem_mergeSort.mp hd)).2
  · exact List.mergeSort_perm _ _
  · exact List.sorted_mergeSort leConfDesc_trans leConfDesc_total _
  · intro c
    refine List.sublist_mergeSort leConfDesc_trans leConfDesc_total ?_ ?_
    · refine List.pairwise_of_forall_mem_list ?_
      intro a ha b hb
      have hac : a.confidence = c := by
        simpa using (List.mem_filter.mp ha).2
      have hbc : b.confidence = c := by
        simpa using (List.mem_filter.mp hb).2
      unfold leConfDesc
      rw [hac, hbc]
      exact jle_refl c
    · exact List.filter_sublist _
  · unfold detectedArrayOf
    rw [List.length_mergeSort, List.length_mergeSort]
    exact List.length_filter_le _ _

def c6m : DetMap :=
  [("A", ⟨"A", some 80, none, [], none, none⟩),
   ("B", ⟨"B", some 30, none, [], none, none⟩),
   ("C", ⟨"C", some 80, none, [], none, none⟩)]

/-- Witness for C6 on a small map with a below-floor record and an
equal-confidence tie. -/
theorem c6_witness :
    jge50 (⟨"A", some 80, none, [], none, none⟩ : DetectionRecord).confidence = true ∧
    (detectedArrayOf c6m).Perm ((c6m.map Prod.snd).filter (fun d => jge50 d.confidence)) ∧
    (detectedArrayOf c6m).Pairwise (fun a b => leConfDesc a b = true) ∧
    ((((c6m.map Prod.snd).filter (fun d => jge50 d.confidence)).filter
        (fun d => d.confidence == some 80)).Sublist (detectedArrayOf c6m)) ∧
    (detectedArrayOf c6m).length ≤ ((c6m.map Prod.snd).mergeSort leConfDesc).length := by
  obtain ⟨h1, h2, h3, h4, h5⟩ := c6_floor_sort_stable c6m
  refine ⟨h1 _ ?_, h2, h3, h4 (some 80), h5⟩
  unfold detectedArrayOf
  exact List.mem_mergeSort.mpr (by decide)

/-!
## C7: CMS selection

Groundwork: every map the pipeline builds has duplicate-free keys and
every entry named after its key, so the value lists the ranking works
on are duplicate-free.
-/

/-- Generic preservation, through the whole closure, of a map property
that `addDetection` preserves. -/
theorem addImplied_pres (Q : DetMap → Prop)
    (hAdd : ∀ (cats : CatTable) (m : DetMap) (k : String) (tech : Tech) (c : JsNum)
      (v : Option String), Q m → Q (addDetection cats m k tech c v))
    (techs : TechList) (cats : CatTable) (acc : DetMap × Bool) (s : String)
    (h : Q acc.1) : Q (addImplied techs cats acc s).1 := by
  unfold addImplied
  cases h1 : (acc.1.lookup (parseImplied s).1).isNone with
  | false => simpa [h1] using h
  | true =>
    cases h2 : techs.lookup (parseImplied s).1 with
    | none => simpa [h1, h2] using h
    | some t => simpa [h1, h2] using hAdd cats acc.1 (parseImplied s).1 t (parseImplied s).2 none h

theorem processImplies_pres (Q : DetMap → Prop)
    (hAdd : ∀ (cats : CatTable) (m : DetMap) (k : String) (tech : Tech) (c : JsNum)
      (v : Option String), Q m → Q (addDetection cats m k tech c v))
    (techs : TechList) (cats : CatTable) (m : DetMap) (techName : String)
    (h : Q m) : Q (processImplies techs cats m techName).1 := by
  unfold processImplies
  cases h1 : techs.lookup techName with
  | none => simpa [h1] using h
  | some tech =>
    cases h2 : tech.implies with
    | none => simpa [h1, h2] using h
    | some impl =>
      cases h3 : impl.isFalsy with
      | true => simpa [h1, h2, h3] using h
      | false =>
        simp only [h1, h2, h3, Bool.false_eq_true, if_false]
        have key : ∀ (ss : List String) (acc : DetMap × Bool), Q acc.1 →
            Q (ss.foldl (addImplied techs cats) acc).1 := by
          intro ss
          induction ss with
          | nil => intro acc h; exact h
          | cons s ss ih => intro acc h; exact ih _ (addImplied_pres Q hAdd techs cats acc s h)
        exact key _ (m, false) h

theorem goPass_pres (Q : DetMap → Prop)
    (hAdd : ∀ (cats : CatTable) (m : DetMap) (k : String) (tech : Tech) (c : JsNum)
      (v : Option String), Q m → Q (addDetection cats m k tech c v))
    (techs : TechList) (cats : CatTable) :
    ∀ (fuel : Nat) (m : DetMap) (i : Nat) (ch : Bool), Q m →
      Q (goPass techs cats fuel m i ch).1 := by
  intro fuel
  induction fuel with
  | zero => intro m i ch h; exact h
  | succ fuel ih =>
    intro m i ch h
    simp only [goPass]
    by_cases hlt : i < m.length
    · rw [dif_pos hlt]
      exact ih _ _ _ (processImplies_pres Q hAdd techs cats m _ h)
    · rw [dif_neg hlt]
      exact h

theorem closureLoop_pres (Q : DetMap → Prop)
    (hAdd : ∀ (cats : CatTable) (m : DetMap) (k : String) (tech : Tech) (c : JsNum)
      (v : Option String), Q m → Q (addDetection cats m k tech c v))
    (techs : TechList) (cats : CatTable) :
    ∀ (fuel : Nat) (m : DetMap), Q m → Q (closureLoop techs cats fuel m).1 := by
  intro fuel
  induction fuel with
  | zero => intro m h; exact h
  | succ fuel ih =>
    intro m h
    simp only [closureLoop]
    have hp : Q (onePass techs cats m).1 := goPass_pres Q hAdd techs cats _ m 0 false h
    split
    · exact ih _ hp
    · exact hp

theorem mainLoop_pres (Q : DetMap → Prop)
    (hAdd : ∀ (cats : CatTable) (m : DetMap) (k : String) (tech : Tech) (c : JsNum)
      (v : Option String), Q m → Q (addDetection cats m k tech c v))
    (hnil : Q []) (E : RegexEngine) (techs : TechList) (cats : CatTable)
    (pd : PageData) (su xu : List String) :
    Q (mainLoop E techs cats pd su xu) := by
  unfold mainLoop
  have key : ∀ (ts : TechList) (m : DetMap), Q m →
      Q (ts.foldl (fun m entry =>
        let st := evalTech E entry.2 pd su xu
        if jgt0 st.totalConfidence then
          addDetection cats m entry.1 entry.2 st.totalConfidence st.detectedVersion
        else m) m) := by
    intro ts
    induction ts with
    | nil => intro m h; exact h
    | cons t ts ih =>
      intro m h
      rw [List.foldl_cons]
      refine ih _ ?_
      dsimp only
      split
      · exact hAdd _ _ _ _ _ _ h
      · exact h
  exact key techs [] hnil

/-- The map the detection run hands to the ranking stage. -/
theorem runMap_invariants (E : RegexEngine) (techs : TechList) (cats : CatTable)
    (pd : PageData) (su xu : List String) :
    (keysOf (impliesClosure techs cats (mainLoop E techs cats pd su xu))).Nodup ∧
    KeysNamed (impliesClosure techs cats (mainLoop E techs cats pd su xu)) := by
  have hAddN : ∀ (cats : CatTable) (m : DetMap) (k : String) (tech : Tech) (c : JsNum)
      (v : Option String), (keysOf m).Nodup → (keysOf (addDetection cats m k tech c v)).Nodup :=
    fun cats m k tech c v h => keysOf_addDetection_nodup cats m k tech c v h
  have hAddK : ∀ (cats : CatTable) (m : DetMap) (k : String) (tech : Tech) (c : JsNum)
      (v : Option String), KeysNamed m → KeysNamed (addDetection cats m k tech c v) :=
    fun _ _ _ _ _ _ h => addDetection_keysNamed h
  constructor
  · exact closureLoop_pres (fun m => (keysOf m).Nodup) hAddN techs cats _ _
      (mainLoop_pres _ hAddN (by simp [keysOf]) E techs cats pd su xu)
  · exact closureLoop_pres KeysNamed hAddK techs cats _ _
      (mainLoop_pres _ hAddK (by intro p hp; simp at hp) E techs cats pd su xu)

/-- Values of a key-unique, key-named map are pairwise distinct. -/
theorem values_nodup {m : DetMap} (hk : (keysOf m).Nodup) (hn : KeysNamed m) :
    (m.map Prod.snd).Nodup := by
  have hmap : (m.map Prod.snd).map (fun d => d.name) = keysOf m := by
    rw [List.map_map]
    exact List.map_congr_left (fun p hp => hn p hp)
  exact List.Nodup.of_map _ (hmap ▸ hk)

/-- In a duplicate-free list, an element of a `[d, r]` sublist that
sits left of the unique occurrence of `r` lies in the prefix. -/
theorem pair_sublist_split {α : Type} {d r : α} :
    ∀ {as bs : List α}, (as ++ r :: bs).Nodup → List.Sublist [d, r] (as ++ r :: bs) →
      d ≠ r → d ∈ as := by
  intro as
  induction as with
  | nil =>
    intro bs hnd hs hne
    simp only [List.nil_append] at hnd hs
    cases hs with
    | cons _ hs' =>
      have hr : r ∈ bs := hs'.subset (by simp)
      exact absurd hr (List.nodup_cons.mp hnd).1
    | cons₂ _ hs' => exact absurd rfl hne
  | cons a as ih =>
    intro bs hnd hs hne
    rw [List.cons_append] at hnd hs
    cases hs with
    | cons _ hs' => exact List.mem_cons_of_mem _ (ih (List.nodup_cons.mp hnd).2 hs' hne)
    | cons₂ _ hs' => exact List.mem_cons_self _ _

/-- **C7 amended**: on every run over collected data, `cmsDetails` is
the first record of the sorted list whose category list contains the
reserved CMS id 1 — a record of maximal confidence among the CMS-tagged
records, and among equal-confidence CMS-tagged records the one detected
first (no equal-confidence CMS record precedes it in detection order);
`cms` is that record's name *if the name is non-empty* — an
empty-string name collapses to null (`cms?.name || null`) while
`cmsDetails` still carries the record; when no record carries the CMS
id, both fields are null. -/
theorem c7_amended_cms_selection (E : RegexEngine) (techs : TechList) (cats : CatTable)
    (src : PageSource) (su xu : List String) :
    ((∀ d ∈ (detectTechnologies E techs cats src su xu).detectedTechnologies,
        hasCmsCat d = false) →
      (detectTechnologies E techs cats src su xu).cms = none ∧
      (detectTechnologies E techs cats src su xu).cmsDetails = none) ∧
    (∀ r, (detectTechnologies E techs cats src su xu).detectedTechnologies.find?
        hasCmsCat = some r →
      (detectTechnologies E techs cats src su xu).cmsDetails = some r ∧
      (detectTechnologies E techs cats src su xu).cms =
        (if r.name = "" then none else some r.name) ∧
      hasCmsCat r = true ∧
      r ∈ (detectTechnologies E techs cats src su xu).detectedTechnologies ∧
      (∀ d ∈ (detectTechnologies E techs cats src su xu).detectedTechnologies,
        hasCmsCat d = true → jle d.confidence r.confidence = true) ∧
      (∀ l₁ l₂ d,
        ((impliesClosure techs cats (mainLoop E techs cats (collectPageData src) su xu)).map Prod.snd).filter
            (fun x => jge50 x.confidence) = l₁ ++ d :: l₂ →
        r ∈ l₂ → hasCmsCat d = true → d.confidence ≠ r.confidence)) := by
  have hout := detectTechnologies_eval E techs cats src su xu
    (detectedArrayOf (impliesClosure techs cats (mainLoop E techs cats (collectPageData src) su xu))) rfl
  obtain ⟨hknd, hknamed⟩ := runMap_invariants E techs cats (collectPageData src) su xu
  have hfnd : ((impliesClosure techs cats (mainLoop E techs cats (collectPageData src) su xu)).map
      Prod.snd).filter (fun d => jge50 d.confidence) |>.Nodup :=
    List.Nodup.filter _ (values_nodup hknd hknamed)
  have harrperm := List.mergeSort_perm
    (((impliesClosure techs cats (mainLoop E techs cats (collectPageData src) su xu)).map
      Prod.snd).filter (fun d => jge50 d.confidence)) leConfDesc
  have harrnd : (detectedArrayOf
      (impliesClosure techs cats (mainLoop E techs cats (collectPageData src) su xu))).Nodup := by
    unfold detectedArrayOf
    exact harrperm.nodup_iff.mpr hfnd
  have hsort : (detectedArrayOf
      (impliesClosure techs cats (mainLoop E techs cats (collectPageData src) su xu))).Pairwise
      (fun a b => leConfDesc a b = true) := by
    unfold detectedArrayOf
    exact List.sorted_mergeSort leConfDesc_trans leConfDesc_total _
  constructor
  · intro hall
    rw [hout] at hall ⊢
    have hfind : (detectedArrayOf (impliesClosure techs cats
        (mainLoop E techs cats (collectPageData src) su xu))).find? hasCmsCat = none :=
      List.find?_eq_none.mpr (fun x hx hpx => by
        have := hall x hx
        rw [this] at hpx
        exact Bool.false_ne_true hpx)
    simp [hfind, jsOrNull]
  · intro r hfind
    rw [hout] at hfind
    simp only at hfind
    obtain ⟨hcatr, as, bs, hdecomp, hnone⟩ := List.find?_eq_some.mp hfind
    rw [hout]
    refine ⟨by simp [hfind], ?_, hcatr, ?_, ?_, ?_⟩
    · simp only [hfind]
      by_cases hname : r.name = ""
      · simp [jsOrNull, hname]
      · simp [jsOrNull, hname]
    · exact List.mem_of_find?_eq_some hfind
    · intro d hd hcatd
      simp only at hd
      rw [hdecomp] at hd
      rcases List.mem_append.mp hd with h1 | h1
      · have := hnone d h1
        rw [hcatd] at this
        simp at this
      · rcases List.mem_cons.mp h1 with rfl | h1
        · exact jle_refl _
        · have hpair := hdecomp ▸ hsort
          have h2 := (List.pairwise_append.mp hpair).2.1
          have h3 := (List.pairwise_cons.mp h2).1 d h1
          exact h3
    · intro l₁ l₂ d hsplit hrmem hcatd hconf
      have hdnotin : d ∉ l₂ := by
        rw [hsplit] at hfnd
        have := (List.nodup_append.mp hfnd).2.1
        exact (List.nodup_cons.mp this).1
      have hdr : d ≠ r := fun he => hdnotin (he ▸ hrmem)
      have hsubfil : List.Sublist [d, r] (((impliesClosure techs cats
          (mainLoop E techs cats (collectPageData src) su xu)).map Prod.snd).filter
          (fun x => jge50 x.confidence)) := by
        rw [hsplit]
        have h1 : List.Sublist [r] l₂ := List.singleton_sublist.mpr hrmem
        have h2 : List.Sublist [d, r] (d :: l₂) := h1.cons₂ d
        exact h2.trans (List.sublist_append_right l₁ (d :: l₂))
      have hpair : List.Pairwise (fun a b => leConfDesc a b = true) [d, r] := by
        refine List.pairwise_cons.mpr ⟨?_, List.pairwise_singleton _ _⟩
        intro x hx
        rcases List.mem_singleton.mp hx with rfl
        unfold leConfDesc
        rw [hconf]
        exact jle_refl _
      have hsubarr : List.Sublist [d, r] (detectedArrayOf (impliesClosure techs cats
          (mainLoop E techs cats (collectPageData src) su xu))) := by
        unfold detectedArrayOf
        exact List.sublist_mergeSort leConfDesc_trans leConfDesc_total hpair hsubfil
      have hdin : d ∈ as :=
        pair_sublist_split (hdecomp ▸ harrnd) (hdecomp ▸ hsubarr) hdr
      have := hnone d hdin
      rw [hcatd] at this
      simp at this

/-- A CMS-category presence rule (header presence, category id 1). -/
def cmsTech : Tech := { headers := some [("x-shopify-stage", .one "")], cats := [1] }

def cmsCats : CatTable := [(1, "CMS")]

def cmsPd : PageData := { headers := [("x-shopify-stage", "production")] }

/-- **C7 counterexample**: a technology whose name is the empty string
is detected at confidence 100 and carries the reserved CMS category
id 1, so the claim says `cms` is its name (the empty string); the code's
`cms?.name || null` collapses the falsy empty name to null while
`cmsDetails` still holds the record — `cms` is not the name of the
highest-confidence CMS-tagged record. -/
theorem c7_counterexample :
    detectTechnologies noMatchEngine [("", cmsTech)] cmsCats (PageSource.pure cmsPd) [] [] =
      ⟨none, some ⟨"", some 100, none, [⟨1, "CMS"⟩], none, none⟩,
       [⟨"", some 100, none, [⟨1, "CMS"⟩], none, none⟩]⟩ := by
  have h : detectedArrayOf (impliesClosure [("", cmsTech)] cmsCats
      (mainLoop noMatchEngine [("", cmsTech)] cmsCats
        (collectPageData (PageSource.pure cmsPd)) [] [])) =
      [⟨"", some 100, none, [⟨1, "CMS"⟩], none, none⟩] := by
    rw [detectedArrayOf_of_sorted (by decide)]
    decide
  rw [detectTechnologies_eval _ _ _ _ _ _ _ h]
  rfl

/-- Witness for the amended C7 on a run that detects a CMS-tagged
record with a non-empty name. -/
theorem c7_witness :
    (detectTechnologies noMatchEngine [("Shopify", cmsTech)] cmsCats (PageSource.pure cmsPd) [] []).cmsDetails =
      some ⟨"Shopify", some 100, none, [⟨1, "CMS"⟩], none, none⟩ ∧
    (detectTechnologies noMatchEngine [("Shopify", cmsTech)] cmsCats (PageSource.pure cmsPd) [] []).cms =
      (if (⟨"Shopify", some 100, none, [⟨1, "CMS"⟩], none, none⟩ : DetectionRecord).name = ""
        then none else some (⟨"Shopify", some 100, none, [⟨1, "CMS"⟩], none,
          none⟩ : DetectionRecord).name) ∧
    hasCmsCat (⟨"Shopify", some 100, none, [⟨1, "CMS"⟩], none, none⟩ : DetectionRecord) = true := by
  have h : detectedArrayOf (impliesClosure [("Shopify", cmsTech)] cmsCats
      (mainLoop noMatchEngine [("Shopify", cmsTech)] cmsCats
        (collectPageData (PageSource.pure cmsPd)) [] [])) =
      [⟨"Shopify", some 100, none, [⟨1, "CMS"⟩], none, none⟩] := by
    rw [detectedArrayOf_of_sorted (by decide)]
    decide
  have hres := (c7_amended_cms_selection noMatchEngine [("Shopify", cmsTech)] cmsCats
    (PageSource.pure cmsPd) [] []).2 ⟨"Shopify", some 100, none, [⟨1, "CMS"⟩], none, none⟩ (by
      rw [detectTechnologies_eval _ _ _ _ _ _ _ h]
      decide)
  exact ⟨hres.1, hres.2.1, hres.2.2.1⟩

end WapDetect
